import Mathlib

/-!
# simple_softbody: the physics core of `soft_body.cpp`

A shallow embedding of the particle, the spring and the grid mesh of
`soft_body.cpp`, and theorems about them.

Conventions of the embedding.

* The C++ `float` is idealised as an arbitrary linearly ordered field `F`
  (exact arithmetic; instantiate `F` with the reals or the rationals).  The
  library call `sqrt` is a parameter `sqrt : F → F` of the functions that
  call it.
* The C++ `int` is the unbounded `Int`; an `int` used in a `float`
  expression is cast into `F`.
* A `Spring` holds C++ references to two `Point`s of the owning object's
  `points` vector.  Here it holds their positions in that vector, and every
  function that goes through a reference takes the vector as an argument
  and returns `none` when the reference does not denote an element of it.
-/

set_option linter.unusedSectionVars false

namespace SoftBody

/-! ## Constants (`soft_body.cpp`, lines 102-104) -/

section Constants
variable (F : Type) [LinearOrderedField F]

/-- `const float dt = 0.003;` -/
def dt : F := 3 / 1000

/-- `const float friction = 0.994;` -/
def friction : F := 994 / 1000

/-- `const float gravity = 9.81/2;` -/
def gravity : F := (981 / 100) / 2

end Constants

/-! ## Data model (lines 107-120, 146-152, 194-197) -/

/-- `class Vector { float x; float y; }` -/
structure Vector (F : Type) where
  x : F
  y : F
deriving DecidableEq, Repr

/-- `class Point { Vector position; Vector velocity; Vector acceleration; }` -/
structure Point (F : Type) where
  position : Vector F
  velocity : Vector F
  acceleration : Vector F
deriving DecidableEq, Repr

/-- `class Spring { Point& p1; Point& p2; float l; float k; float d; }`:
`p1` and `p2` are positions in the owner's `points` vector. -/
structure Spring (F : Type) where
  p1 : Nat
  p2 : Nat
  l : F
  k : F
  d : F
deriving DecidableEq, Repr

/-- `class Object { std::vector<Point> points; std::vector<Spring> springs; }`,
of which `CubeObject` is the one concrete class. -/
structure CubeObject (F : Type) where
  points : List (Point F)
  springs : List (Spring F)
deriving DecidableEq, Repr

section Model
variable {F : Type} [LinearOrderedField F]

/-! ## `Point::Update` (lines 122-140) -/

/-- `void Point::Update()`, one assignment of the source per `let`. -/
def Point.Update (p : Point F) : Point F :=
  -- velocity.x += acceleration.x;
  let p := { p with velocity := { p.velocity with x := p.velocity.x + p.acceleration.x } }
  -- velocity.y += acceleration.y;
  let p := { p with velocity := { p.velocity with y := p.velocity.y + p.acceleration.y } }
  -- position.x += velocity.x * dt;
  let p := { p with position := { p.position with x := p.position.x + p.velocity.x * dt F } }
  -- position.y += velocity.y * dt;
  let p := { p with position := { p.position with y := p.position.y + p.velocity.y * dt F } }
  -- velocity.x *= friction;
  let p := { p with velocity := { p.velocity with x := p.velocity.x * friction F } }
  -- velocity.y *= friction;
  let p := { p with velocity := { p.velocity with y := p.velocity.y * friction F } }
  -- acceleration.x = 0;
  let p := { p with acceleration := { p.acceleration with x := 0 } }
  -- acceleration.y = 0;
  let p := { p with acceleration := { p.acceleration with y := 0 } }
  -- if(position.y >= 512){ position.y = 512; velocity.y *= -1; }
  let p :=
    if p.position.y ≥ 512 then
      let p := { p with position := { p.position with y := 512 } }
      { p with velocity := { p.velocity with y := p.velocity.y * (-1) } }
    else p
  -- acceleration.y = gravity;
  { p with acceleration := { p.acceleration with y := gravity F } }

/-- The reference step of the specification for one particle: `v1 = v + a`
(not scaled by `dt`), `p1 = p + v1*dt`, `v2 = v1*friction`; the floor at
`512` clamps `position.y` and inverts `velocity.y`; the acceleration
becomes `(0, gravity)`. -/
def Point.referenceStep (p : Point F) : Point F :=
  let v1 : Vector F := ⟨p.velocity.x + p.acceleration.x, p.velocity.y + p.acceleration.y⟩
  let p1 : Vector F := ⟨p.position.x + v1.x * dt F, p.position.y + v1.y * dt F⟩
  let v2 : Vector F := ⟨v1.x * friction F, v1.y * friction F⟩
  { position := ⟨p1.x, if p1.y ≥ 512 then 512 else p1.y⟩
    velocity := ⟨v2.x, if p1.y ≥ 512 then -v2.y else v2.y⟩
    acceleration := ⟨0, gravity F⟩ }

/-! ## `Spring` (lines 159-164, 173-192) -/

/-- `points[n]` on the `std::vector<Point>` with an `int` subscript: the
element at position `n`; the subscript is defined only inside
`[0, points.size())`. -/
def vectorIndex (points : List (Point F)) (n : Int) : Option Nat :=
  if 0 ≤ n ∧ n < (points.length : Int) then some n.toNat else none

/-- The constructor `Spring::Spring(Point& p1, Point& p2, float k, float d)`: the rest length
is the distance of the two points at construction time. -/
def Spring.ctor (sqrt : F → F) (points : List (Point F)) (p1 p2 : Nat) (k d : F) :
    Option (Spring F) := do
  let a ← points[p1]?
  let b ← points[p2]?
  -- float dx = p1.position.x - p2.position.x;
  let dx := a.position.x - b.position.x
  -- float dy = p1.position.y - p2.position.y;
  let dy := a.position.y - b.position.y
  -- l = sqrt(dx*dx + dy*dy);
  some { p1 := p1, p2 := p2, l := sqrt (dx * dx + dy * dy), k := k, d := d }

/-- One assignment through a `Point&`: the element at position `n` of the
vector is replaced by `g` of it. -/
def assignAt (points : List (Point F)) (n : Nat) (g : Point F → Point F) :
    Option (List (Point F)) :=
  match points[n]? with
  | some p => some (points.set n (g p))
  | none => none

/-- `void Spring::Apply()`, on the vector that owns the two points. -/
def Spring.Apply (sqrt : F → F) (s : Spring F) (points : List (Point F)) :
    Option (List (Point F)) := do
  let a ← points[s.p1]?
  let b ← points[s.p2]?
  -- float dx = p1.position.x - p2.position.x;
  let dx := a.position.x - b.position.x
  -- float dy = p1.position.y - p2.position.y;
  let dy := a.position.y - b.position.y
  -- float cur_dist = sqrt(dx*dx + dy*dy);
  let cur_dist := sqrt (dx * dx + dy * dy)
  -- float ca = dx/l;  float sa = dy/l;
  let ca := dx / s.l
  let sa := dy / s.l
  -- float dd = l - cur_dist;  float f = dd * k;
  let dd := s.l - cur_dist
  let f := dd * s.k
  -- p1.acceleration.x += f * ca;
  let points ← assignAt points s.p1 fun p =>
    { p with acceleration := { p.acceleration with x := p.acceleration.x + f * ca } }
  -- p1.acceleration.y += f * sa;
  let points ← assignAt points s.p1 fun p =>
    { p with acceleration := { p.acceleration with y := p.acceleration.y + f * sa } }
  -- p2.acceleration.x -= f * ca;
  let points ← assignAt points s.p2 fun p =>
    { p with acceleration := { p.acceleration with x := p.acceleration.x - f * ca } }
  -- p2.acceleration.y -= f * sa;
  let points ← assignAt points s.p2 fun p =>
    { p with acceleration := { p.acceleration with y := p.acceleration.y - f * sa } }
  some points

/-- The force law of the specification: with `d = posA - posB`,
`curDist = |d|` and `f = (l - curDist)*k`, the vector `f*(d.x/l, d.y/l)`. -/
def Spring.referenceForce (sqrt : F → F) (l k : F) (posA posB : Vector F) : Vector F :=
  let d : Vector F := ⟨posA.x - posB.x, posA.y - posB.y⟩
  let curDist := sqrt (d.x ^ 2 + d.y ^ 2)
  let f := (l - curDist) * k
  ⟨f * (d.x / l), f * (d.y / l)⟩

/-- The Euclidean distance between two positions, for the given square
root. -/
def Vector.distance (sqrt : F → F) (a b : Vector F) : F :=
  sqrt ((a.x - b.x) ^ 2 + (a.y - b.y) ^ 2)

/-- The pair (endpoint A index, endpoint B index) of a spring. -/
def Spring.endpoints (s : Spring F) : Int × Int :=
  ((s.p1 : Int), (s.p2 : Int))

/-! ## `CubeObject` (lines 212-254) -/

/-- The values `lo, lo+1, ..., hi-1` taken by the counter of
`for(int i=lo; i<hi; i++)`. -/
def intRange (lo hi : Int) : List Int :=
  (List.range (hi - lo).toNat).map fun (n : Nat) => lo + (n : Int)

/-- `for(int i=lo; i<hi; i++) body`, threading the state; it stops with
`none` as soon as the body does. -/
def forLoop {σ : Type} (lo hi : Int) (body : Int → σ → Option σ) (init : σ) : Option σ :=
  (intRange lo hi).foldlM (fun s i => body i s) init

/-- `springs.push_back(Spring{points[m], points[n], hardness, 0.1})`. -/
def pushSpring (sqrt : F → F) (points : List (Point F)) (m n : Int) (hardness : F)
    (springs : List (Spring F)) : Option (List (Spring F)) := do
  let a ← vectorIndex points m
  let b ← vectorIndex points n
  let s ← Spring.ctor sqrt points a b hardness (1 / 10)
  some (springs ++ [s])

/-- The constructor
`CubeObject::CubeObject(int x, int y, int w, int h, float dist, float hardness)`. -/
def CubeObject.ctor (sqrt : F → F) (x y w h : Int) (dist hardness : F) :
    Option (CubeObject F) := do
  let points : List (Point F) := []
  let springs : List (Spring F) := []
  -- generate points
  let points ← forLoop 0 h (fun j points =>
    forLoop 0 w (fun i points =>
      some (points ++ [{ position := ⟨(x : F) + (i : F) * dist, (y : F) + (j : F) * dist⟩
                         velocity := ⟨0, 0⟩
                         acceleration := ⟨0, 0⟩ }])) points) points
  -- generate connections in right left
  let springs ← forLoop 0 (w - 1) (fun i springs =>
    forLoop 0 h (fun j springs =>
      pushSpring sqrt points (w * j + i) (w * j + i + 1) hardness springs) springs) springs
  -- generate connections in bottom top
  let springs ← forLoop 0 w (fun i springs =>
    forLoop 0 (h - 1) (fun j springs =>
      pushSpring sqrt points (w * j + i) (w * j + i + w) hardness springs) springs) springs
  -- generate connections to bottom right
  let springs ← forLoop 0 (w - 1) (fun i springs =>
    forLoop 0 (h - 1) (fun j springs =>
      pushSpring sqrt points (w * j + i) (w * j + i + w + 1) hardness springs) springs) springs
  -- generate connections to up left
  let springs ← forLoop 1 w (fun i springs =>
    forLoop 0 (h - 1) (fun j springs =>
      pushSpring sqrt points (w * j + i) (w * j + i + w - 1) hardness springs) springs) springs
  some { points := points, springs := springs }

/-- `void CubeObject::Apply()`: `for(auto& s : springs) s.Apply();`. -/
def CubeObject.Apply (sqrt : F → F) (c : CubeObject F) : Option (CubeObject F) := do
  let points ← c.springs.foldlM (fun points s => s.Apply sqrt points) c.points
  some { c with points := points }

/-- `void CubeObject::Update()`: `for(auto& p : points) p.Update();`. -/
def CubeObject.Update (c : CubeObject F) : CubeObject F :=
  { c with points := c.points.map Point.Update }

/-- A square root on the rationals: exact on the square of a rational,
rounded down on the numerator otherwise. -/
def sqrtQ (q : ℚ) : ℚ :=
  (Nat.sqrt (q.num.toNat * q.den) : ℚ) / (q.den : ℚ)

/-! ## The force of one spring, and cycles of the main loop -/

/-- The local variable `f` of `Spring::Apply` (lines 175-185) when the two
endpoints are at the positions `a` and `b`. -/
def Spring.f (sqrt : F → F) (s : Spring F) (a b : Vector F) : F :=
  -- float dx = p1.position.x - p2.position.x;
  let dx := a.x - b.x
  -- float dy = p1.position.y - p2.position.y;
  let dy := a.y - b.y
  -- float cur_dist = sqrt(dx*dx + dy*dy);
  let cur_dist := sqrt (dx * dx + dy * dy)
  -- float dd = l - cur_dist;  float f = dd * k;
  let dd := s.l - cur_dist
  dd * s.k

/-- The vector `(f * ca, f * sa)` that `Spring::Apply` (lines 180-191) adds to
`p1.acceleration` and subtracts from `p2.acceleration`. -/
def Spring.force (sqrt : F → F) (s : Spring F) (a b : Vector F) : Vector F :=
  ⟨s.f sqrt a b * ((a.x - b.x) / s.l), s.f sqrt a b * ((a.y - b.y) / s.l)⟩

/-- The vector of particles in which `t` has been added to the acceleration
of the particle at position `p1` and then subtracted from the acceleration of
the particle at position `p2`. -/
def accelerate (points : List (Point F)) (p1 p2 : Nat) (t : Vector F) : List (Point F) :=
  points.mapIdx fun n p =>
    { p with acceleration :=
      ⟨p.acceleration.x + (if n = p1 then t.x else 0) - (if n = p2 then t.x else 0),
       p.acceleration.y + (if n = p1 then t.y else 0) - (if n = p2 then t.y else 0)⟩ }

/-- The sum of the accelerations of the particles, by component. -/
def totalAcceleration (points : List (Point F)) : Vector F :=
  ⟨(points.map fun p => p.acceleration.x).sum, (points.map fun p => p.acceleration.y).sum⟩

/-- Every spring of the object refers to two particles of the object. -/
def CubeObject.WellFormed (c : CubeObject F) : Prop :=
  ∀ s ∈ c.springs, s.p1 < c.points.length ∧ s.p2 < c.points.length

/-! ## The grid in closed form -/

/-- The particle that the constructor pushes for column `i` and row `j`. -/
def gridPoint (x y : Int) (dist : F) (i j : Int) : Point F :=
  { position := ⟨(x : F) + (i : F) * dist, (y : F) + (j : F) * dist⟩
    velocity := ⟨0, 0⟩
    acceleration := ⟨0, 0⟩ }

/-- The particles of the grid, row after row. -/
def gridPoints (x y w h : Int) (dist : F) : List (Point F) :=
  (intRange 0 h).flatMap fun j => (intRange 0 w).map fun i => gridPoint x y dist i j

/-- The spring that `Spring{points[w*j+i], points[w*j2+i2], hardness, 0.1}`
builds between the particle of column `i`, row `j` and the particle of
column `i2`, row `j2`. -/
def gridSpring (sqrt : F → F) (x y w : Int) (dist hardness : F) (i j i2 j2 : Int) : Spring F :=
  let a := gridPoint x y dist i j
  let b := gridPoint x y dist i2 j2
  { p1 := (w * j + i).toNat
    p2 := (w * j2 + i2).toNat
    l := sqrt ((a.position.x - b.position.x) * (a.position.x - b.position.x)
          + (a.position.y - b.position.y) * (a.position.y - b.position.y))
    k := hardness
    d := 1 / 10 }

/-- The springs of the grid in the order of the four loop nests: right-left,
bottom-top, bottom-right, up-left. -/
def gridSprings (sqrt : F → F) (x y w h : Int) (dist hardness : F) : List (Spring F) :=
  ((intRange 0 (w - 1)).flatMap fun i => (intRange 0 h).flatMap fun j =>
      [gridSpring sqrt x y w dist hardness i j (i + 1) j])
  ++ ((intRange 0 w).flatMap fun i => (intRange 0 (h - 1)).flatMap fun j =>
      [gridSpring sqrt x y w dist hardness i j i (j + 1)])
  ++ ((intRange 0 (w - 1)).flatMap fun i => (intRange 0 (h - 1)).flatMap fun j =>
      [gridSpring sqrt x y w dist hardness i j (i + 1) (j + 1)])
  ++ ((intRange 1 w).flatMap fun i => (intRange 0 (h - 1)).flatMap fun j =>
      [gridSpring sqrt x y w dist hardness i j (i - 1) (j + 1)])

/-- A particle at `(0,0)` with acceleration `(1,2)`. -/
def pointQ0 : Point ℚ := ⟨⟨0, 0⟩, ⟨0, 0⟩, ⟨1, 2⟩⟩

/-- A particle at `(6,8)` with velocity `(3,4)`. -/
def pointQ1 : Point ℚ := ⟨⟨6, 8⟩, ⟨3, 4⟩, ⟨0, 0⟩⟩

/-- The vector of the two particles `pointQ0`, `pointQ1`. -/
def pointsQ : List (Point ℚ) := [pointQ0, pointQ1]

/-- A spring between positions 0 and 1 of a vector, of rest length 5,
stiffness 50 and damping field 0.1. -/
def springQ : Spring ℚ := ⟨0, 1, 5, 50, 1 / 10⟩

/-- A particle at `(6,0)` with velocity `(0,1)`. -/
def pointQ2 : Point ℚ := ⟨⟨6, 0⟩, ⟨0, 1⟩, ⟨0, 0⟩⟩

/-- A spring between positions 1 and 2 of a vector, of rest length 6 and
stiffness 50. -/
def springQ12 : Spring ℚ := ⟨1, 2, 6, 50, 1 / 10⟩

/-- The object of the three particles `pointQ0`, `pointQ1`, `pointQ2` and the
two springs `springQ`, `springQ12`. -/
def meshQ : CubeObject ℚ := ⟨[pointQ0, pointQ1, pointQ2], [springQ, springQ12]⟩

/-! ## Concrete particles over any field -/

section Particles
variable (F : Type) [LinearOrderedField F]

/-- A particle at rest at `(0,600)`, beyond the floor line `y = 512`, with no
acceleration. -/
def pointBeyondFloor : Point F := ⟨⟨0, 600⟩, ⟨0, 0⟩, ⟨0, 0⟩⟩

/-- A particle at rest at `(0,100)` with no acceleration. -/
def pointAtRest : Point F := ⟨⟨0, 100⟩, ⟨0, 0⟩, ⟨0, 0⟩⟩

/-- A particle on the floor line at `(0,512)`, moving down with velocity
`(0,2)`, with the acceleration `(0, gravity)`. -/
def pointOnFloor : Point F := ⟨⟨0, 512⟩, ⟨0, 2⟩, ⟨0, gravity F⟩⟩

end Particles

end Model

section Theorems
variable {F : Type} [LinearOrderedField F]

/-- C1: `Point::Update` equals the reference step for every particle state:
with `v1 = v + a`, `p1 = p + v1*dt`, `v2 = v1*friction`, the result has
`position.x = p1.x`, `velocity.x = v2.x`, `acceleration = (0, gravity)`, and
`position.y = 512`, `velocity.y = -v2.y` when `p1.y >= 512`, otherwise
`position.y = p1.y`, `velocity.y = v2.y`; the constants are `dt = 0.003`,
`friction = 0.994`, `gravity = 9.81/2`. -/
theorem Point.Update_eq_referenceStep (p : Point F) :
    p.Update = p.referenceStep ∧
      dt F = 3 / 1000 ∧ friction F = 994 / 1000 ∧ 2 * gravity F = 981 / 100 := by
  refine ⟨?_, rfl, rfl, ?_⟩
  · unfold Point.Update Point.referenceStep
    by_cases h : p.position.y + (p.velocity.y + p.acceleration.y) * dt F ≥ 512
    · simp [h]
    · simp [h]
  · unfold gravity; ring

/-! ## Spring force -/

theorem assignAt_of_getElem? {points : List (Point F)} {n : Nat} {p : Point F}
    (h : points[n]? = some p) (g : Point F → Point F) :
    assignAt points n g = some (points.set n (g p)) := by
  simp [assignAt, h]

/-- The four assignments of `Spring::Apply` on two different elements of the
vector, in closed form. -/
theorem Spring.Apply_distinct (sqrt : F → F) (s : Spring F) (points : List (Point F))
    (a b : Point F) (ha : points[s.p1]? = some a) (hb : points[s.p2]? = some b)
    (hne : s.p1 ≠ s.p2) :
    s.Apply sqrt points = some ((points.set s.p1
      { a with acceleration :=
        ⟨a.acceleration.x + (s.l - sqrt ((a.position.x - b.position.x) * (a.position.x - b.position.x)
            + (a.position.y - b.position.y) * (a.position.y - b.position.y))) * s.k
            * ((a.position.x - b.position.x) / s.l),
         a.acceleration.y + (s.l - sqrt ((a.position.x - b.position.x) * (a.position.x - b.position.x)
            + (a.position.y - b.position.y) * (a.position.y - b.position.y))) * s.k
            * ((a.position.y - b.position.y) / s.l)⟩ }).set s.p2
      { b with acceleration :=
        ⟨b.acceleration.x - (s.l - sqrt ((a.position.x - b.position.x) * (a.position.x - b.position.x)
            + (a.position.y - b.position.y) * (a.position.y - b.position.y))) * s.k
            * ((a.position.x - b.position.x) / s.l),
         b.acceleration.y - (s.l - sqrt ((a.position.x - b.position.x) * (a.position.x - b.position.x)
            + (a.position.y - b.position.y) * (a.position.y - b.position.y))) * s.k
            * ((a.position.y - b.position.y) / s.l)⟩ }) := by
  have h1 : s.p1 < points.length := (List.getElem?_eq_some.1 ha).1
  have h2 : s.p2 < points.length := (List.getElem?_eq_some.1 hb).1
  unfold Spring.Apply
  simp only [ha, hb, Option.bind_eq_bind, Option.some_bind]
  rw [assignAt_of_getElem? ha]
  simp only [Option.some_bind]
  rw [assignAt_of_getElem? (List.getElem?_set_eq_of_lt _ h1)]
  simp only [Option.some_bind, List.set_set]
  rw [assignAt_of_getElem? (by rw [List.getElem?_set_ne hne]; exact hb)]
  simp only [Option.some_bind]
  rw [assignAt_of_getElem? (List.getElem?_set_eq_of_lt _ (by simpa using h2))]
  simp only [Option.some_bind, List.set_set]

/-- C2: `Spring::Apply` equals the reference force law.  For a spring with
rest length `l`, stiffness `k` and two distinct endpoint particles `A`, `B`
of the vector, with `d = posA - posB`, `curDist = |d|` and
`f = (l - curDist)*k`, it returns the vector in which `f*(d.x/l, d.y/l)` is
added to `A.acceleration` and subtracted from `B.acceleration`, nothing else
being changed; the direction is divided by `l`, and the result does not
depend on the damping field `d`. -/
theorem Spring.Apply_eq_referenceForce (sqrt : F → F) (s : Spring F)
    (points : List (Point F)) (A B : Point F)
    (hA : points[s.p1]? = some A) (hB : points[s.p2]? = some B) (hne : s.p1 ≠ s.p2) :
    s.Apply sqrt points = some ((points.set s.p1
        { A with acceleration :=
          ⟨A.acceleration.x + (Spring.referenceForce sqrt s.l s.k A.position B.position).x,
           A.acceleration.y + (Spring.referenceForce sqrt s.l s.k A.position B.position).y⟩ }).set
        s.p2
        { B with acceleration :=
          ⟨B.acceleration.x - (Spring.referenceForce sqrt s.l s.k A.position B.position).x,
           B.acceleration.y - (Spring.referenceForce sqrt s.l s.k A.position B.position).y⟩ })
      ∧ ∀ d : F, Spring.Apply sqrt { s with d := d } points = s.Apply sqrt points := by
  constructor
  · rw [Spring.Apply_distinct sqrt s points A B hA hB hne]
    simp only [Spring.referenceForce, sq]
  · intro d
    rfl

/-- C2, at a spring of rest length 5 and stiffness 50 between a particle at
`(0,0)` and a particle at `(6,8)`. -/
theorem Spring.Apply_eq_referenceForce_witness :
    (pointsQ[springQ.p1]? = some pointQ0 ∧ pointsQ[springQ.p2]? = some pointQ1 ∧
      springQ.p1 ≠ springQ.p2) ∧
    Spring.Apply sqrtQ springQ pointsQ = some ((pointsQ.set 0
        { pointQ0 with acceleration :=
          ⟨pointQ0.acceleration.x + (Spring.referenceForce sqrtQ 5 50 pointQ0.position pointQ1.position).x,
           pointQ0.acceleration.y + (Spring.referenceForce sqrtQ 5 50 pointQ0.position pointQ1.position).y⟩ }).set
        1
        { pointQ1 with acceleration :=
          ⟨pointQ1.acceleration.x - (Spring.referenceForce sqrtQ 5 50 pointQ0.position pointQ1.position).x,
           pointQ1.acceleration.y - (Spring.referenceForce sqrtQ 5 50 pointQ0.position pointQ1.position).y⟩ })
      ∧ ∀ d : ℚ, Spring.Apply sqrtQ { springQ with d := d } pointsQ = Spring.Apply sqrtQ springQ pointsQ :=
  ⟨⟨rfl, rfl, by decide⟩,
    Spring.Apply_eq_referenceForce sqrtQ springQ pointsQ pointQ0 pointQ1 rfl rfl (by decide)⟩

/-- C3: force symmetry.  For one `Spring::Apply` on a spring whose two
endpoints are distinct particles of the vector, the call succeeds, and the
change in acceleration of endpoint `A` is the negation of the change in
acceleration of endpoint `B`, on both axes (whether or not the two positions
coincide). -/
theorem Spring.Apply_force_symmetry (sqrt : F → F) (s : Spring F)
    (points : List (Point F)) (A B : Point F)
    (hA : points[s.p1]? = some A) (hB : points[s.p2]? = some B) (hne : s.p1 ≠ s.p2) :
    ∃ points1 A1 B1, s.Apply sqrt points = some points1 ∧
      points1[s.p1]? = some A1 ∧ points1[s.p2]? = some B1 ∧
      A1.acceleration.x - A.acceleration.x = -(B1.acceleration.x - B.acceleration.x) ∧
      A1.acceleration.y - A.acceleration.y = -(B1.acceleration.y - B.acceleration.y) := by
  have h1 : s.p1 < points.length := (List.getElem?_eq_some.1 hA).1
  have h2 : s.p2 < points.length := (List.getElem?_eq_some.1 hB).1
  refine ⟨_, ?_, ?_, Spring.Apply_distinct sqrt s points A B hA hB hne, ?_, ?_, ?_, ?_⟩
  pick_goal 3
  · rw [List.getElem?_set_ne (Ne.symm hne)]
    exact List.getElem?_set_eq_of_lt _ h1
  pick_goal 2
  · have e : ∀ (l : List (Point F)) (q : Point F), s.p2 < l.length →
        (l.set s.p2 q)[s.p2]? = some q := fun l q h => List.getElem?_set_eq_of_lt q h
    refine e _ _ ?_
    simpa using h2
  · ring
  · ring

/-- C3, at a spring of rest length 5 between a particle at `(0,0)` and a
particle at `(6,8)`. -/
theorem Spring.Apply_force_symmetry_witness :
    (pointsQ[springQ.p1]? = some pointQ0 ∧ pointsQ[springQ.p2]? = some pointQ1 ∧
      springQ.p1 ≠ springQ.p2) ∧
    ∃ points1 A1 B1, Spring.Apply sqrtQ springQ pointsQ = some points1 ∧
      points1[0]? = some A1 ∧ points1[1]? = some B1 ∧
      A1.acceleration.x - pointQ0.acceleration.x = -(B1.acceleration.x - pointQ1.acceleration.x) ∧
      A1.acceleration.y - pointQ0.acceleration.y = -(B1.acceleration.y - pointQ1.acceleration.y) :=
  ⟨⟨rfl, rfl, by decide⟩,
    Spring.Apply_force_symmetry sqrtQ springQ pointsQ pointQ0 pointQ1 rfl rfl (by decide)⟩

/-! ## One particle step -/

/-- C9, as stated, fails: the particle at rest at `(0,600)` with zero
acceleration is moved by `Point::Update` to `(0,512)`. -/
theorem Point.Update_at_rest_counterexample :
    (pointBeyondFloor ℚ).velocity = ⟨0, 0⟩ ∧ (pointBeyondFloor ℚ).acceleration = ⟨0, 0⟩ ∧
      (pointBeyondFloor ℚ).position = ⟨0, 600⟩ ∧
      (pointBeyondFloor ℚ).Update.position = ⟨0, 512⟩ ∧
      (pointBeyondFloor ℚ).Update.position ≠ (pointBeyondFloor ℚ).position := by
  refine ⟨rfl, rfl, rfl, ?_, ?_⟩ <;>
    norm_num [Point.Update, pointBeyondFloor, dt, friction, gravity]

/-- C9, amended: for every particle with velocity `(0,0)` and acceleration
`(0,0)` whose `position.y` is at most `512`, after one `Point::Update` the
position is unchanged and the acceleration equals `(0, gravity)`. -/
theorem Point.Update_at_rest (p : Point F) (hv : p.velocity = ⟨0, 0⟩)
    (ha : p.acceleration = ⟨0, 0⟩) (hy : p.position.y ≤ 512) :
    p.Update.position = p.position ∧ p.Update.acceleration = ⟨0, gravity F⟩ := by
  obtain ⟨⟨px, py⟩, ⟨vx, vy⟩, ⟨ax, ay⟩⟩ := p
  simp only [Vector.mk.injEq] at hv ha hy
  obtain ⟨rfl, rfl⟩ := hv
  obtain ⟨rfl, rfl⟩ := ha
  unfold Point.Update
  by_cases h : py ≥ 512
  · have : py = 512 := le_antisymm hy h
    simp [this]
  · simp [h]

/-- C9, amended, at the particle at rest at `(0,100)`. -/
theorem Point.Update_at_rest_witness :
    ((pointAtRest ℚ).velocity = ⟨0, 0⟩ ∧ (pointAtRest ℚ).acceleration = ⟨0, 0⟩ ∧
      (pointAtRest ℚ).position.y ≤ 512) ∧
    (pointAtRest ℚ).Update.position = (pointAtRest ℚ).position ∧
      (pointAtRest ℚ).Update.acceleration = ⟨0, gravity ℚ⟩ :=
  ⟨⟨rfl, rfl, by norm_num [pointAtRest]⟩,
    Point.Update_at_rest (pointAtRest ℚ) rfl rfl (by norm_num [pointAtRest])⟩

theorem mem_intRange {lo hi i : Int} : i ∈ intRange lo hi ↔ lo ≤ i ∧ i < hi := by
  unfold intRange
  simp only [List.mem_map, List.mem_range]
  constructor
  · rintro ⟨n, hn, rfl⟩
    omega
  · rintro ⟨h1, h2⟩
    exact ⟨(i - lo).toNat, by omega, by omega⟩

theorem length_intRange (lo hi : Int) : (intRange lo hi).length = (hi - lo).toNat := by
  simp [intRange]

theorem nodup_intRange (lo hi : Int) : (intRange lo hi).Nodup := by
  unfold intRange
  refine (List.nodup_range _).map ?_
  intro a b hab
  simpa using hab

theorem intRange_eq_nil {lo hi : Int} (h : hi ≤ lo) : intRange lo hi = [] := by
  have : (hi - lo).toNat = 0 := by omega
  simp [intRange, this]

theorem intRange_succ {lo hi : Int} (h : lo ≤ hi) :
    intRange lo (hi + 1) = intRange lo hi ++ [hi] := by
  unfold intRange
  have e : (hi + 1 - lo).toNat = (hi - lo).toNat + 1 := by omega
  rw [e, List.range_succ, List.map_append]
  simp only [List.map_cons, List.map_nil, List.append_cancel_left_eq, List.cons.injEq, and_true]
  omega

/-- A loop whose body appends `g i` to the state appends the concatenation of
the `g i` over the range. -/
theorem foldlM_append_flatMap {α : Type} (L : List Int)
    (body : Int → List α → Option (List α)) (g : Int → List α)
    (hb : ∀ i ∈ L, ∀ s, body i s = some (s ++ g i)) (s : List α) :
    L.foldlM (fun s i => body i s) s = some (s ++ L.flatMap g) := by
  induction L generalizing s with
  | nil => simp
  | cons i L ih =>
    rw [List.foldlM_cons, hb i (List.mem_cons_self _ _)]
    simp only [Option.bind_eq_bind, Option.some_bind]
    rw [ih (fun k hk => hb k (List.mem_cons_of_mem _ hk))]
    simp

theorem forLoop_append_flatMap {α : Type} (lo hi : Int)
    (body : Int → List α → Option (List α)) (g : Int → List α)
    (hb : ∀ i, lo ≤ i → i < hi → ∀ s, body i s = some (s ++ g i)) (s : List α) :
    forLoop lo hi body s = some (s ++ (intRange lo hi).flatMap g) :=
  foldlM_append_flatMap _ body g (fun i hi s => hb i (mem_intRange.1 hi).1 (mem_intRange.1 hi).2 s) s

/-! ## Row-major tables -/

theorem length_range_flatMap_range {α : Type} (f : Nat → Nat → α) (W H : Nat) :
    ((List.range H).flatMap fun J => (List.range W).map fun I => f I J).length = H * W := by
  induction H with
  | zero => simp
  | succ H ih =>
    rw [List.range_succ, List.flatMap_append, List.length_append, ih]
    simp [Nat.succ_mul]

theorem getElem?_range_flatMap_range {α : Type} (f : Nat → Nat → α) (W H I J : Nat)
    (hI : I < W) (hJ : J < H) :
    ((List.range H).flatMap fun J => (List.range W).map fun I => f I J)[W * J + I]?
      = some (f I J) := by
  induction H with
  | zero => omega
  | succ H ih =>
    rw [List.range_succ, List.flatMap_append]
    rcases Nat.lt_succ_iff_lt_or_eq.1 hJ with hlt | rfl
    · have hlen : W * J + I <
          ((List.range H).flatMap fun J => (List.range W).map fun I => f I J).length := by
        rw [length_range_flatMap_range]
        calc W * J + I < W * J + W := by omega
          _ = (J + 1) * W := by ring
          _ ≤ H * W := Nat.mul_le_mul_right W hlt
      rw [List.getElem?_append_left hlen]
      exact ih hlt
    · have hlen : ((List.range J).flatMap fun J => (List.range W).map fun I => f I J).length
          ≤ W * J + I := by
        rw [length_range_flatMap_range]
        rw [Nat.mul_comm]
        omega
      rw [List.getElem?_append_right hlen, length_range_flatMap_range]
      have e : W * J + I - J * W = I := by
        rw [Nat.mul_comm]
        omega
      rw [e]
      simp [List.getElem?_range hI]

theorem intRange_zero_natCast (n : Nat) :
    intRange 0 (n : Int) = (List.range n).map fun (k : Nat) => (k : Int) := by
  simp [intRange]

theorem gridPoints_natCast (x y : Int) (dist : F) (W H : Nat) :
    gridPoints x y (W : Int) (H : Int) dist
      = (List.range H).flatMap fun (J : Nat) => (List.range W).map fun (I : Nat) =>
          gridPoint x y dist (I : Int) (J : Int) := by
  unfold gridPoints
  rw [intRange_zero_natCast, intRange_zero_natCast, List.flatMap_map]
  simp only [List.map_map]
  rfl

theorem gridPoints_eq_nil (x y w h : Int) (dist : F) (hwh : w ≤ 0 ∨ h ≤ 0) :
    gridPoints x y w h dist = [] := by
  unfold gridPoints
  rcases hwh with hw | hh
  · rw [@intRange_eq_nil 0 w (by omega)]
    simp
  · rw [@intRange_eq_nil 0 h (by omega)]
    simp

theorem length_gridPoints (x y w h : Int) (dist : F) :
    (gridPoints x y w h dist).length = h.toNat * w.toNat := by
  rcases le_or_lt w 0 with hw | hw
  · rw [gridPoints_eq_nil x y w h dist (Or.inl hw)]
    have : w.toNat = 0 := by omega
    simp [this]
  rcases le_or_lt h 0 with hh | hh
  · rw [gridPoints_eq_nil x y w h dist (Or.inr hh)]
    have : h.toNat = 0 := by omega
    simp [this]
  obtain ⟨W, rfl⟩ := Int.eq_ofNat_of_zero_le hw.le
  obtain ⟨H, rfl⟩ := Int.eq_ofNat_of_zero_le hh.le
  rw [gridPoints_natCast, length_range_flatMap_range]
  simp

/-- The particle of column `i` and row `j` is at position `w*j+i`. -/
theorem getElem?_gridPoints (x y w h : Int) (dist : F) (i j : Int)
    (hi0 : 0 ≤ i) (hiw : i < w) (hj0 : 0 ≤ j) (hjh : j < h) :
    (gridPoints x y w h dist)[(w * j + i).toNat]? = some (gridPoint x y dist i j) := by
  obtain ⟨W, rfl⟩ := Int.eq_ofNat_of_zero_le (by omega : 0 ≤ w)
  obtain ⟨H, rfl⟩ := Int.eq_ofNat_of_zero_le (by omega : 0 ≤ h)
  obtain ⟨I, rfl⟩ := Int.eq_ofNat_of_zero_le hi0
  obtain ⟨J, rfl⟩ := Int.eq_ofNat_of_zero_le hj0
  have e : ((W : Int) * (J : Int) + (I : Int)).toNat = W * J + I := by
    have : ((W : Int) * (J : Int) + (I : Int)) = ((W * J + I : Nat) : Int) := by push_cast; ring
    rw [this, Int.toNat_ofNat]
  rw [e, gridPoints_natCast]
  exact getElem?_range_flatMap_range (fun I J => gridPoint x y dist (I : Int) (J : Int))
    W H I J (by exact_mod_cast hiw) (by exact_mod_cast hjh)

/-- The same as a bound: `0 <= w*j+i < points.size()`. -/
theorem index_lt_length_gridPoints (x y w h : Int) (dist : F) (i j : Int)
    (hi0 : 0 ≤ i) (hiw : i < w) (hj0 : 0 ≤ j) (hjh : j < h) :
    0 ≤ w * j + i ∧ w * j + i < ((gridPoints x y w h dist).length : Int) := by
  have hlt := (List.getElem?_eq_some.1 (getElem?_gridPoints x y w h dist i j hi0 hiw hj0 hjh)).1
  have h0 : 0 ≤ w * j + i := by
    have : 0 ≤ w * j := mul_nonneg (by omega) hj0
    omega
  refine ⟨h0, ?_⟩
  have : ((w * j + i).toNat : Int) < ((gridPoints x y w h dist).length : Int) := by
    exact_mod_cast hlt
  rwa [Int.toNat_of_nonneg h0] at this

/-! ## The constructor in closed form -/

theorem pushSpring_gridPoints (sqrt : F → F) (x y w h : Int) (dist hardness : F)
    (i j i2 j2 m n : Int)
    (hi0 : 0 ≤ i) (hiw : i < w) (hj0 : 0 ≤ j) (hjh : j < h)
    (hi20 : 0 ≤ i2) (hi2w : i2 < w) (hj20 : 0 ≤ j2) (hj2h : j2 < h)
    (hm : m = w * j + i) (hn : n = w * j2 + i2) (springs : List (Spring F)) :
    pushSpring sqrt (gridPoints x y w h dist) m n hardness springs
      = some (springs ++ [gridSpring sqrt x y w dist hardness i j i2 j2]) := by
  subst hm hn
  have b1 := index_lt_length_gridPoints x y w h dist i j hi0 hiw hj0 hjh
  have b2 := index_lt_length_gridPoints x y w h dist i2 j2 hi20 hi2w hj20 hj2h
  have g1 := getElem?_gridPoints x y w h dist i j hi0 hiw hj0 hjh
  have g2 := getElem?_gridPoints x y w h dist i2 j2 hi20 hi2w hj20 hj2h
  simp only [pushSpring, vectorIndex, b1, b2, and_self, if_true, Spring.ctor, g1, g2,
    Option.bind_eq_bind, Option.some_bind, gridSpring]

theorem ctor_points_loop (x y w h : Int) (dist : F) :
    forLoop 0 h (fun j points =>
      forLoop 0 w (fun i points =>
        some (points ++ [({ position := ⟨(x : F) + (i : F) * dist, (y : F) + (j : F) * dist⟩
                            velocity := ⟨0, 0⟩
                            acceleration := ⟨0, 0⟩ } : Point F)])) points) []
      = some (gridPoints x y w h dist) := by
  rw [forLoop_append_flatMap 0 h _
    (fun j => (intRange 0 w).map fun i => gridPoint x y dist i j)]
  · simp [gridPoints]
  · intro j _ _ s
    rw [forLoop_append_flatMap 0 w _ (fun i => [gridPoint x y dist i j])]
    · rw [← List.map_eq_flatMap]
    · intro i _ _ s
      rfl

/-- The constructor succeeds for every argument and builds the grid. -/
theorem CubeObject.ctor_eq (sqrt : F → F) (x y w h : Int) (dist hardness : F) :
    CubeObject.ctor sqrt x y w h dist hardness
      = some { points := gridPoints x y w h dist
               springs := gridSprings sqrt x y w h dist hardness } := by
  unfold CubeObject.ctor
  simp only [ctor_points_loop, Option.bind_eq_bind, Option.some_bind]
  rw [forLoop_append_flatMap 0 (w - 1) _ (fun i => (intRange 0 h).flatMap fun j =>
    [gridSpring sqrt x y w dist hardness i j (i + 1) j])]
  swap
  · intro i hi0 hiw s
    apply forLoop_append_flatMap
    intro j hj0 hjh s
    exact pushSpring_gridPoints sqrt x y w h dist hardness i j (i + 1) j _ _
      hi0 (by omega) hj0 hjh (by omega) (by omega) hj0 hjh rfl (by ring) s
  simp only [Option.some_bind]
  rw [forLoop_append_flatMap 0 w _ (fun i => (intRange 0 (h - 1)).flatMap fun j =>
    [gridSpring sqrt x y w dist hardness i j i (j + 1)])]
  swap
  · intro i hi0 hiw s
    apply forLoop_append_flatMap
    intro j hj0 hjh s
    exact pushSpring_gridPoints sqrt x y w h dist hardness i j i (j + 1) _ _
      hi0 hiw hj0 (by omega) hi0 hiw (by omega) (by omega) rfl (by ring) s
  simp only [Option.some_bind]
  rw [forLoop_append_flatMap 0 (w - 1) _ (fun i => (intRange 0 (h - 1)).flatMap fun j =>
    [gridSpring sqrt x y w dist hardness i j (i + 1) (j + 1)])]
  swap
  · intro i hi0 hiw s
    apply forLoop_append_flatMap
    intro j hj0 hjh s
    exact pushSpring_gridPoints sqrt x y w h dist hardness i j (i + 1) (j + 1) _ _
      hi0 (by omega) hj0 (by omega) (by omega) (by omega) (by omega) (by omega) rfl (by ring) s
  simp only [Option.some_bind]
  rw [forLoop_append_flatMap 1 w _ (fun i => (intRange 0 (h - 1)).flatMap fun j =>
    [gridSpring sqrt x y w dist hardness i j (i - 1) (j + 1)])]
  swap
  · intro i hi0 hiw s
    apply forLoop_append_flatMap
    intro j hj0 hjh s
    exact pushSpring_gridPoints sqrt x y w h dist hardness i j (i - 1) (j + 1) _ _
      (by omega) hiw hj0 (by omega) (by omega) (by omega) (by omega) (by omega) rfl (by ring) s
  simp only [Option.some_bind, gridSprings, List.nil_append, List.append_assoc]

/-! ## The springs of the grid -/

/-- Over the reals `Vector.distance` is the distance of the Euclidean plane. -/
theorem Vector.distance_eq_dist (a b : Vector ℝ) :
    Vector.distance Real.sqrt a b
      = dist ((WithLp.equiv 2 (Fin 2 → ℝ)).symm ![a.x, a.y] : EuclideanSpace ℝ (Fin 2))
          ((WithLp.equiv 2 (Fin 2 → ℝ)).symm ![b.x, b.y]) := by
  rw [EuclideanSpace.dist_eq, Fin.sum_univ_two]
  simp [Vector.distance, Real.dist_eq, sq_abs]

theorem mem_gridSprings (sqrt : F → F) (x y w h : Int) (dist hardness : F) (s : Spring F) :
    s ∈ gridSprings sqrt x y w h dist hardness ↔
      (∃ i j, (0 ≤ i ∧ i < w - 1) ∧ (0 ≤ j ∧ j < h) ∧
          s = gridSpring sqrt x y w dist hardness i j (i + 1) j)
      ∨ (∃ i j, (0 ≤ i ∧ i < w) ∧ (0 ≤ j ∧ j < h - 1) ∧
          s = gridSpring sqrt x y w dist hardness i j i (j + 1))
      ∨ (∃ i j, (0 ≤ i ∧ i < w - 1) ∧ (0 ≤ j ∧ j < h - 1) ∧
          s = gridSpring sqrt x y w dist hardness i j (i + 1) (j + 1))
      ∨ (∃ i j, (1 ≤ i ∧ i < w) ∧ (0 ≤ j ∧ j < h - 1) ∧
          s = gridSpring sqrt x y w dist hardness i j (i - 1) (j + 1)) := by
  simp only [gridSprings, List.mem_append, List.mem_flatMap, mem_intRange, List.mem_singleton,
    or_assoc]
  constructor
  · rintro (⟨i, hi, j, hj, rfl⟩ | ⟨i, hi, j, hj, rfl⟩ | ⟨i, hi, j, hj, rfl⟩ | ⟨i, hi, j, hj, rfl⟩)
    · exact Or.inl ⟨i, j, hi, hj, rfl⟩
    · exact Or.inr (Or.inl ⟨i, j, hi, hj, rfl⟩)
    · exact Or.inr (Or.inr (Or.inl ⟨i, j, hi, hj, rfl⟩))
    · exact Or.inr (Or.inr (Or.inr ⟨i, j, hi, hj, rfl⟩))
  · rintro (⟨i, j, hi, hj, rfl⟩ | ⟨i, j, hi, hj, rfl⟩ | ⟨i, j, hi, hj, rfl⟩ | ⟨i, j, hi, hj, rfl⟩)
    · exact Or.inl ⟨i, hi, j, hj, rfl⟩
    · exact Or.inr (Or.inl ⟨i, hi, j, hj, rfl⟩)
    · exact Or.inr (Or.inr (Or.inl ⟨i, hi, j, hj, rfl⟩))
    · exact Or.inr (Or.inr (Or.inr ⟨i, hi, j, hj, rfl⟩))

/-- Every spring of the grid joins two different cells of the grid. -/
theorem exists_cells_of_mem_gridSprings (sqrt : F → F) (x y w h : Int) (dist hardness : F)
    (s : Spring F) (hs : s ∈ gridSprings sqrt x y w h dist hardness) :
    ∃ i j i2 j2, (0 ≤ i ∧ i < w) ∧ (0 ≤ j ∧ j < h) ∧ (0 ≤ i2 ∧ i2 < w) ∧ (0 ≤ j2 ∧ j2 < h) ∧
      (i ≠ i2 ∨ j ≠ j2) ∧ s = gridSpring sqrt x y w dist hardness i j i2 j2 := by
  rcases (mem_gridSprings sqrt x y w h dist hardness s).1 hs with
    ⟨i, j, hi, hj, rfl⟩ | ⟨i, j, hi, hj, rfl⟩ | ⟨i, j, hi, hj, rfl⟩ | ⟨i, j, hi, hj, rfl⟩
  · exact ⟨i, j, i + 1, j, by omega, by omega, by omega, by omega, by omega, rfl⟩
  · exact ⟨i, j, i, j + 1, by omega, by omega, by omega, by omega, by omega, rfl⟩
  · exact ⟨i, j, i + 1, j + 1, by omega, by omega, by omega, by omega, by omega, rfl⟩
  · exact ⟨i, j, i - 1, j + 1, by omega, by omega, by omega, by omega, by omega, rfl⟩

/-- The position `w*j+i` determines the cell `(i, j)`. -/
theorem cell_unique {w i j i2 j2 : Int} (hi : 0 ≤ i ∧ i < w) (hi2 : 0 ≤ i2 ∧ i2 < w)
    (e : w * j + i = w * j2 + i2) : i = i2 ∧ j = j2 := by
  have hw : 0 < w := by omega
  have h1 : (w * j + i) % w = i := by
    rw [Int.add_comm, Int.add_mul_emod_self_left]
    exact Int.emod_eq_of_lt hi.1 hi.2
  have h2 : (w * j2 + i2) % w = i2 := by
    rw [Int.add_comm, Int.add_mul_emod_self_left]
    exact Int.emod_eq_of_lt hi2.1 hi2.2
  have hii : i = i2 := by rw [← h1, ← h2, e]
  subst hii
  refine ⟨rfl, ?_⟩
  have : w * j = w * j2 := by omega
  exact Int.eq_of_mul_eq_mul_left (by omega) this

theorem length_flatMap_of_length_eq {α β : Type} (L : List α) (g : α → List β) (c : Nat)
    (hg : ∀ i ∈ L, (g i).length = c) : (L.flatMap g).length = L.length * c := by
  induction L with
  | nil => simp
  | cons a L ih =>
    rw [List.flatMap_cons, List.length_append, hg a (List.mem_cons_self _ _),
      ih (fun i hi => hg i (List.mem_cons_of_mem _ hi)), List.length_cons]
    ring

theorem length_loopNest {β : Type} (a b c d : Int) (f : Int → Int → β) :
    ((intRange a b).flatMap fun i => (intRange c d).flatMap fun j => [f i j]).length
      = (b - a).toNat * (d - c).toNat := by
  rw [length_flatMap_of_length_eq _ _ (d - c).toNat, length_intRange]
  intro i _
  rw [length_flatMap_of_length_eq _ _ 1, length_intRange, Nat.mul_one]
  intro j _
  rfl

theorem length_gridSprings (sqrt : F → F) (x y w h : Int) (dist hardness : F) :
    (gridSprings sqrt x y w h dist hardness).length
      = (w - 1).toNat * h.toNat + w.toNat * (h - 1).toNat
        + (w - 1).toNat * (h - 1).toNat + (w - 1).toNat * (h - 1).toNat := by
  simp only [gridSprings, List.length_append, length_loopNest, sub_zero]

/-- C4: spring rest-length invariant.  For every construction
`CubeObject(x, y, w, h, dist, hardness)` the constructor returns an object in
which every spring has two endpoint particles in the mesh and a rest length
`l` equal to the Euclidean distance between the positions of these two
particles in the constructed object. -/
theorem CubeObject.ctor_restLength (sqrt : F → F) (x y w h : Int) (dist hardness : F) :
    ∃ c, CubeObject.ctor sqrt x y w h dist hardness = some c ∧
      ∀ s ∈ c.springs, ∃ a b, c.points[s.p1]? = some a ∧ c.points[s.p2]? = some b ∧
        s.l = Vector.distance sqrt a.position b.position := by
  refine ⟨_, CubeObject.ctor_eq sqrt x y w h dist hardness, ?_⟩
  intro s hs
  obtain ⟨i, j, i2, j2, hi, hj, hi2, hj2, -, rfl⟩ :=
    exists_cells_of_mem_gridSprings sqrt x y w h dist hardness s hs
  refine ⟨gridPoint x y dist i j, gridPoint x y dist i2 j2,
    getElem?_gridPoints x y w h dist i j hi.1 hi.2 hj.1 hj.2,
    getElem?_gridPoints x y w h dist i2 j2 hi2.1 hi2.2 hj2.1 hj2.2, ?_⟩
  simp only [gridSpring, Vector.distance, sq]

/-- C5: topology count.  For `w >= 1` and `h >= 1` the constructor returns an
object with exactly `w*h` particles and exactly
`(w-1)*h + w*(h-1) + 2*(w-1)*(h-1)` springs; a 2x2 grid has exactly 4
particles and exactly 6 springs. -/
theorem CubeObject.ctor_count (sqrt : F → F) (x y w h : Int) (dist hardness : F)
    (hw : 1 ≤ w) (hh : 1 ≤ h) :
    ∃ c, CubeObject.ctor sqrt x y w h dist hardness = some c ∧
      (c.points.length : Int) = w * h ∧
      (c.springs.length : Int) = (w - 1) * h + w * (h - 1) + 2 * (w - 1) * (h - 1) ∧
      (w = 2 → h = 2 → c.points.length = 4 ∧ c.springs.length = 6) := by
  refine ⟨_, CubeObject.ctor_eq sqrt x y w h dist hardness, ?_⟩
  simp only [length_gridPoints, length_gridSprings]
  obtain ⟨W, rfl⟩ : ∃ W : Nat, w = (W : Int) + 1 := ⟨(w - 1).toNat, by omega⟩
  obtain ⟨H, rfl⟩ : ∃ H : Nat, h = (H : Int) + 1 := ⟨(h - 1).toNat, by omega⟩
  have e1 : ((W : Int) + 1).toNat = W + 1 := by omega
  have e2 : ((H : Int) + 1).toNat = H + 1 := by omega
  have e3 : ((W : Int) + 1 - 1).toNat = W := by omega
  have e4 : ((H : Int) + 1 - 1).toNat = H := by omega
  rw [e1, e2, e3, e4]
  refine ⟨by push_cast; ring, by push_cast; ring, ?_⟩
  intro hW hH
  have hW1 : W = 1 := by omega
  have hH1 : H = 1 := by omega
  subst hW1 hH1
  exact ⟨rfl, rfl⟩

/-- C5 on the 2x2 grid at `(0,0)` with spacing 10 and stiffness 50. -/
theorem CubeObject.ctor_count_witness :
    ((1 : Int) ≤ 2 ∧ (1 : Int) ≤ 2) ∧
    ∃ c, CubeObject.ctor sqrtQ 0 0 2 2 10 50 = some c ∧
      (c.points.length : Int) = 2 * 2 ∧
      (c.springs.length : Int) = (2 - 1) * 2 + 2 * (2 - 1) + 2 * (2 - 1) * (2 - 1) ∧
      ((2 : Int) = 2 → (2 : Int) = 2 → c.points.length = 4 ∧ c.springs.length = 6) :=
  ⟨⟨by decide, by decide⟩, CubeObject.ctor_count sqrtQ 0 0 2 2 10 50 (by decide) (by decide)⟩

/-- C6: row-major particle layout.  The constructor returns an object in
which, for every `i` in `[0,w)` and `j` in `[0,h)`, the particle at index
`w*j + i` has position `(x + i*dist, y + j*dist)`, velocity `(0,0)` and
acceleration `(0,0)`. -/
theorem CubeObject.ctor_layout (sqrt : F → F) (x y w h : Int) (dist hardness : F) :
    ∃ c, CubeObject.ctor sqrt x y w h dist hardness = some c ∧
      ∀ i j : Int, 0 ≤ i → i < w → 0 ≤ j → j < h →
        c.points[(w * j + i).toNat]? =
          some { position := ⟨(x : F) + (i : F) * dist, (y : F) + (j : F) * dist⟩
                 velocity := ⟨0, 0⟩
                 acceleration := ⟨0, 0⟩ } := by
  refine ⟨_, CubeObject.ctor_eq sqrt x y w h dist hardness, ?_⟩
  intro i j hi0 hiw hj0 hjh
  exact getElem?_gridPoints x y w h dist i j hi0 hiw hj0 hjh

/-- C6 on the 5x3 grid at `(156,30)` with spacing 17, at column 2 of row 1:
the particle at index 7 is at `(190, 47)`. -/
theorem CubeObject.ctor_layout_witness :
    ((0 : Int) ≤ 2 ∧ (2 : Int) < 5 ∧ (0 : Int) ≤ 1 ∧ (1 : Int) < 3) ∧
    ∃ c, CubeObject.ctor sqrtQ 156 30 5 3 17 50 = some c ∧
      c.points[7]? = some { position := ⟨190, 47⟩, velocity := ⟨0, 0⟩, acceleration := ⟨0, 0⟩ } := by
  obtain ⟨c, hc, hl⟩ := CubeObject.ctor_layout sqrtQ 156 30 5 3 (17 : ℚ) 50
  refine ⟨by decide, c, hc, ?_⟩
  have := hl 2 1 (by decide) (by decide) (by decide) (by decide)
  norm_num at this
  exact this

theorem mem_loopNest {β : Type} (a b c d : Int) (f : Int → Int → β) (t : β) :
    (t ∈ (intRange a b).flatMap fun i => (intRange c d).flatMap fun j => [f i j]) ↔
      ∃ i j, (a ≤ i ∧ i < b) ∧ (c ≤ j ∧ j < d) ∧ t = f i j := by
  simp only [List.mem_flatMap, mem_intRange, List.mem_singleton]
  constructor
  · rintro ⟨i, hi, j, hj, rfl⟩
    exact ⟨i, j, hi, hj, rfl⟩
  · rintro ⟨i, j, hi, hj, rfl⟩
    exact ⟨i, hi, j, hj, rfl⟩

theorem nodup_loopNest {β : Type} (a b c d : Int) (f : Int → Int → β)
    (hf : ∀ i j i2 j2, (a ≤ i ∧ i < b) → (c ≤ j ∧ j < d) → (a ≤ i2 ∧ i2 < b) →
      (c ≤ j2 ∧ j2 < d) → f i j = f i2 j2 → i = i2 ∧ j = j2) :
    ((intRange a b).flatMap fun i => (intRange c d).flatMap fun j => [f i j]).Nodup := by
  rw [List.nodup_flatMap]
  constructor
  · intro i hi
    rw [← List.map_eq_flatMap]
    refine (nodup_intRange c d).map_on ?_
    intro j hj j2 hj2 e
    exact (hf i j i j2 (mem_intRange.1 hi) (mem_intRange.1 hj) (mem_intRange.1 hi)
      (mem_intRange.1 hj2) e).2
  · refine (nodup_intRange a b).pairwise_of_forall_ne ?_
    intro i hi i2 hi2 hne
    rw [Function.onFun, List.disjoint_left]
    intro t ht ht2
    simp only [List.mem_flatMap, mem_intRange, List.mem_singleton] at ht ht2
    obtain ⟨j, hj, rfl⟩ := ht
    obtain ⟨j2, hj2, e⟩ := ht2
    exact hne (hf i j i2 j2 (mem_intRange.1 hi) hj (mem_intRange.1 hi2) hj2 e).1

theorem disjoint_loopNest {β : Type} (a b c d a2 b2 c2 d2 : Int) (f g : Int → Int → β)
    (hfg : ∀ i j i2 j2, (a ≤ i ∧ i < b) → (c ≤ j ∧ j < d) → (a2 ≤ i2 ∧ i2 < b2) →
      (c2 ≤ j2 ∧ j2 < d2) → f i j ≠ g i2 j2) :
    List.Disjoint ((intRange a b).flatMap fun i => (intRange c d).flatMap fun j => [f i j])
      ((intRange a2 b2).flatMap fun i => (intRange c2 d2).flatMap fun j => [g i j]) := by
  rw [List.disjoint_left]
  intro t ht ht2
  obtain ⟨i, j, hi, hj, rfl⟩ := (mem_loopNest a b c d f t).1 ht
  obtain ⟨i2, j2, hi2, hj2, e⟩ := (mem_loopNest a2 b2 c2 d2 g _).1 ht2
  exact hfg i j i2 j2 hi hj hi2 hj2 e

theorem endpoints_gridSpring (sqrt : F → F) (x y w : Int) (dist hardness : F)
    (i j i2 j2 : Int) (hi : 0 ≤ i ∧ i < w) (hj : 0 ≤ j) (hi2 : 0 ≤ i2 ∧ i2 < w) (hj2 : 0 ≤ j2) :
    (gridSpring sqrt x y w dist hardness i j i2 j2).endpoints = (w * j + i, w * j2 + i2) := by
  have h1 : 0 ≤ w * j := mul_nonneg (by omega) hj
  have h2 : 0 ≤ w * j2 := mul_nonneg (by omega) hj2
  simp only [Spring.endpoints, gridSpring, Prod.mk.injEq]
  constructor <;> omega

/-- The endpoint pair of a spring of the grid determines its two cells. -/
theorem endpoints_gridSpring_injective (sqrt : F → F) (x y w : Int) (dist hardness : F)
    {i j i2 j2 i' j' i2' j2' : Int}
    (hi : 0 ≤ i ∧ i < w) (hj : 0 ≤ j) (hi2 : 0 ≤ i2 ∧ i2 < w) (hj2 : 0 ≤ j2)
    (hi' : 0 ≤ i' ∧ i' < w) (hj' : 0 ≤ j') (hi2' : 0 ≤ i2' ∧ i2' < w) (hj2' : 0 ≤ j2')
    (e : (gridSpring sqrt x y w dist hardness i j i2 j2).endpoints
      = (gridSpring sqrt x y w dist hardness i' j' i2' j2').endpoints) :
    (i = i' ∧ j = j') ∧ (i2 = i2' ∧ j2 = j2') := by
  rw [endpoints_gridSpring sqrt x y w dist hardness i j i2 j2 hi hj hi2 hj2,
    endpoints_gridSpring sqrt x y w dist hardness i' j' i2' j2' hi' hj' hi2' hj2',
    Prod.mk.injEq] at e
  exact ⟨cell_unique hi hi' e.1, cell_unique hi2 hi2' e.2⟩

theorem map_endpoints_gridSprings (sqrt : F → F) (x y w h : Int) (dist hardness : F) :
    (gridSprings sqrt x y w h dist hardness).map Spring.endpoints =
      ((intRange 0 (w - 1)).flatMap fun i => (intRange 0 h).flatMap fun j =>
          [(gridSpring sqrt x y w dist hardness i j (i + 1) j).endpoints])
      ++ ((intRange 0 w).flatMap fun i => (intRange 0 (h - 1)).flatMap fun j =>
          [(gridSpring sqrt x y w dist hardness i j i (j + 1)).endpoints])
      ++ ((intRange 0 (w - 1)).flatMap fun i => (intRange 0 (h - 1)).flatMap fun j =>
          [(gridSpring sqrt x y w dist hardness i j (i + 1) (j + 1)).endpoints])
      ++ ((intRange 1 w).flatMap fun i => (intRange 0 (h - 1)).flatMap fun j =>
          [(gridSpring sqrt x y w dist hardness i j (i - 1) (j + 1)).endpoints]) := by
  simp only [gridSprings, List.map_append, List.map_flatMap, List.map_cons, List.map_nil]

theorem nodup_map_endpoints_gridSprings (sqrt : F → F) (x y w h : Int) (dist hardness : F) :
    ((gridSprings sqrt x y w h dist hardness).map Spring.endpoints).Nodup := by
  rw [map_endpoints_gridSprings]
  simp only [List.nodup_append, List.disjoint_append_left]
  refine ⟨⟨⟨?_, ?_, ?_⟩, ?_, ?_, ?_⟩, ?_, ⟨?_, ?_⟩, ?_⟩
  · apply nodup_loopNest
    intro i j i' j' hi hj hi' hj' e
    exact (endpoints_gridSpring_injective sqrt x y w dist hardness (by omega) (by omega)
      (by omega) (by omega) (by omega) (by omega) (by omega) (by omega) e).1
  · apply nodup_loopNest
    intro i j i' j' hi hj hi' hj' e
    exact (endpoints_gridSpring_injective sqrt x y w dist hardness (by omega) (by omega)
      (by omega) (by omega) (by omega) (by omega) (by omega) (by omega) e).1
  · apply disjoint_loopNest
    intro i j i' j' hi hj hi' hj' e
    have := endpoints_gridSpring_injective sqrt x y w dist hardness (by omega) (by omega)
      (by omega) (by omega) (by omega) (by omega) (by omega) (by omega) e
    omega
  · apply nodup_loopNest
    intro i j i' j' hi hj hi' hj' e
    exact (endpoints_gridSpring_injective sqrt x y w dist hardness (by omega) (by omega)
      (by omega) (by omega) (by omega) (by omega) (by omega) (by omega) e).1
  · apply disjoint_loopNest
    intro i j i' j' hi hj hi' hj' e
    have := endpoints_gridSpring_injective sqrt x y w dist hardness (by omega) (by omega)
      (by omega) (by omega) (by omega) (by omega) (by omega) (by omega) e
    omega
  · apply disjoint_loopNest
    intro i j i' j' hi hj hi' hj' e
    have := endpoints_gridSpring_injective sqrt x y w dist hardness (by omega) (by omega)
      (by omega) (by omega) (by omega) (by omega) (by omega) (by omega) e
    omega
  · apply nodup_loopNest
    intro i j i' j' hi hj hi' hj' e
    exact (endpoints_gridSpring_injective sqrt x y w dist hardness (by omega) (by omega)
      (by omega) (by omega) (by omega) (by omega) (by omega) (by omega) e).1
  · apply disjoint_loopNest
    intro i j i' j' hi hj hi' hj' e
    have := endpoints_gridSpring_injective sqrt x y w dist hardness (by omega) (by omega)
      (by omega) (by omega) (by omega) (by omega) (by omega) (by omega) e
    omega
  · apply disjoint_loopNest
    intro i j i' j' hi hj hi' hj' e
    have := endpoints_gridSpring_injective sqrt x y w dist hardness (by omega) (by omega)
      (by omega) (by omega) (by omega) (by omega) (by omega) (by omega) e
    omega
  · apply disjoint_loopNest
    intro i j i' j' hi hj hi' hj' e
    have := endpoints_gridSpring_injective sqrt x y w dist hardness (by omega) (by omega)
      (by omega) (by omega) (by omega) (by omega) (by omega) (by omega) e
    omega

theorem mem_map_endpoints_gridSprings (sqrt : F → F) (x y w h : Int) (dist hardness : F)
    (a b : Int) :
    (a, b) ∈ (gridSprings sqrt x y w h dist hardness).map Spring.endpoints ↔
      (∃ i j, (0 ≤ i ∧ i < w - 1) ∧ (0 ≤ j ∧ j < h) ∧ a = w * j + i ∧ b = w * j + i + 1)
      ∨ (∃ i j, (0 ≤ i ∧ i < w) ∧ (0 ≤ j ∧ j < h - 1) ∧ a = w * j + i ∧ b = w * (j + 1) + i)
      ∨ (∃ i j, (0 ≤ i ∧ i < w - 1) ∧ (0 ≤ j ∧ j < h - 1) ∧
          a = w * j + i ∧ b = w * (j + 1) + i + 1)
      ∨ (∃ i j, (1 ≤ i ∧ i < w) ∧ (0 ≤ j ∧ j < h - 1) ∧
          a = w * j + i ∧ b = w * (j + 1) + i - 1) := by
  have e1 : ∀ i j, (0 ≤ i ∧ i < w - 1) → (0 ≤ j ∧ j < h) →
      (gridSpring sqrt x y w dist hardness i j (i + 1) j).endpoints
        = (w * j + i, w * j + i + 1) := by
    intro i j hi hj
    rw [endpoints_gridSpring sqrt x y w dist hardness i j (i + 1) j (by omega) (by omega)
      (by omega) (by omega), Prod.mk.injEq]
    constructor <;> ring
  have e2 : ∀ i j, (0 ≤ i ∧ i < w) → (0 ≤ j ∧ j < h - 1) →
      (gridSpring sqrt x y w dist hardness i j i (j + 1)).endpoints
        = (w * j + i, w * (j + 1) + i) := by
    intro i j hi hj
    rw [endpoints_gridSpring sqrt x y w dist hardness i j i (j + 1) (by omega) (by omega)
      (by omega) (by omega)]
  have e3 : ∀ i j, (0 ≤ i ∧ i < w - 1) → (0 ≤ j ∧ j < h - 1) →
      (gridSpring sqrt x y w dist hardness i j (i + 1) (j + 1)).endpoints
        = (w * j + i, w * (j + 1) + i + 1) := by
    intro i j hi hj
    rw [endpoints_gridSpring sqrt x y w dist hardness i j (i + 1) (j + 1) (by omega) (by omega)
      (by omega) (by omega), Prod.mk.injEq]
    constructor <;> ring
  have e4 : ∀ i j, (1 ≤ i ∧ i < w) → (0 ≤ j ∧ j < h - 1) →
      (gridSpring sqrt x y w dist hardness i j (i - 1) (j + 1)).endpoints
        = (w * j + i, w * (j + 1) + i - 1) := by
    intro i j hi hj
    rw [endpoints_gridSpring sqrt x y w dist hardness i j (i - 1) (j + 1) (by omega) (by omega)
      (by omega) (by omega), Prod.mk.injEq]
    constructor <;> ring
  simp only [List.mem_map, mem_gridSprings]
  constructor
  · rintro ⟨s, ⟨i, j, hi, hj, rfl⟩ | ⟨i, j, hi, hj, rfl⟩ | ⟨i, j, hi, hj, rfl⟩ |
      ⟨i, j, hi, hj, rfl⟩, hs⟩
    · rw [e1 i j hi hj, Prod.mk.injEq] at hs
      exact Or.inl ⟨i, j, hi, hj, hs.1.symm, hs.2.symm⟩
    · rw [e2 i j hi hj, Prod.mk.injEq] at hs
      exact Or.inr (Or.inl ⟨i, j, hi, hj, hs.1.symm, hs.2.symm⟩)
    · rw [e3 i j hi hj, Prod.mk.injEq] at hs
      exact Or.inr (Or.inr (Or.inl ⟨i, j, hi, hj, hs.1.symm, hs.2.symm⟩))
    · rw [e4 i j hi hj, Prod.mk.injEq] at hs
      exact Or.inr (Or.inr (Or.inr ⟨i, j, hi, hj, hs.1.symm, hs.2.symm⟩))
  · rintro (⟨i, j, hi, hj, rfl, rfl⟩ | ⟨i, j, hi, hj, rfl, rfl⟩ | ⟨i, j, hi, hj, rfl, rfl⟩ |
      ⟨i, j, hi, hj, rfl, rfl⟩)
    · exact ⟨_, Or.inl ⟨i, j, hi, hj, rfl⟩, e1 i j hi hj⟩
    · exact ⟨_, Or.inr (Or.inl ⟨i, j, hi, hj, rfl⟩), e2 i j hi hj⟩
    · exact ⟨_, Or.inr (Or.inr (Or.inl ⟨i, j, hi, hj, rfl⟩)), e3 i j hi hj⟩
    · exact ⟨_, Or.inr (Or.inr (Or.inr ⟨i, j, hi, hj, rfl⟩)), e4 i j hi hj⟩

/-- C7: spring connectivity.  The constructor returns an object in which the
list of (endpoint A index, endpoint B index) pairs of the springs has no
repetition and consists exactly of `(w*j+i, w*j+i+1)` for `i` in `[0,w-1)`,
`j` in `[0,h)`; `(w*j+i, w*(j+1)+i)` for `i` in `[0,w)`, `j` in `[0,h-1)`;
`(w*j+i, w*(j+1)+i+1)` for `i` in `[0,w-1)`, `j` in `[0,h-1)`; and
`(w*j+i, w*(j+1)+i-1)` for `i` in `[1,w)`, `j` in `[0,h-1)`; every spring has
stiffness `hardness`.  This holds for every `w` and `h`, in particular for
`w >= 1` and `h >= 1`. -/
theorem CubeObject.ctor_connectivity (sqrt : F → F) (x y w h : Int) (dist hardness : F) :
    ∃ c, CubeObject.ctor sqrt x y w h dist hardness = some c ∧
      (c.springs.map Spring.endpoints).Nodup ∧
      (∀ a b : Int, (a, b) ∈ c.springs.map Spring.endpoints ↔
        (∃ i j, (0 ≤ i ∧ i < w - 1) ∧ (0 ≤ j ∧ j < h) ∧ a = w * j + i ∧ b = w * j + i + 1)
        ∨ (∃ i j, (0 ≤ i ∧ i < w) ∧ (0 ≤ j ∧ j < h - 1) ∧
            a = w * j + i ∧ b = w * (j + 1) + i)
        ∨ (∃ i j, (0 ≤ i ∧ i < w - 1) ∧ (0 ≤ j ∧ j < h - 1) ∧
            a = w * j + i ∧ b = w * (j + 1) + i + 1)
        ∨ (∃ i j, (1 ≤ i ∧ i < w) ∧ (0 ≤ j ∧ j < h - 1) ∧
            a = w * j + i ∧ b = w * (j + 1) + i - 1)) ∧
      ∀ s ∈ c.springs, s.k = hardness := by
  refine ⟨_, CubeObject.ctor_eq sqrt x y w h dist hardness,
    nodup_map_endpoints_gridSprings sqrt x y w h dist hardness,
    mem_map_endpoints_gridSprings sqrt x y w h dist hardness, ?_⟩
  intro s hs
  obtain ⟨i, j, i2, j2, -, -, -, -, -, rfl⟩ :=
    exists_cells_of_mem_gridSprings sqrt x y w h dist hardness s hs
  rfl

/-! ## The constructor on small grids -/

/-- C4 on the 2x1 grid at `(0,0)` with spacing 10: its one spring joins the
particles at `(0,0)` and `(10,0)` and has rest length 10. -/
theorem CubeObject.ctor_restLength_witness :
    CubeObject.ctor sqrtQ 0 0 2 1 10 50
      = some { points := [⟨⟨0, 0⟩, ⟨0, 0⟩, ⟨0, 0⟩⟩, ⟨⟨10, 0⟩, ⟨0, 0⟩, ⟨0, 0⟩⟩]
               springs := [⟨0, 1, 10, 50, 1 / 10⟩] } ∧
      Vector.distance sqrtQ ⟨0, 0⟩ ⟨10, 0⟩ = 10 := by
  have hs : sqrtQ 100 = 10 := by
    have h : Nat.sqrt 100 = 10 := (Nat.eq_sqrt.2 (by decide)).symm
    simp [sqrtQ, h]
  constructor
  · rw [CubeObject.ctor_eq]
    have e : (10 : ℚ) * 10 = 100 := by norm_num
    simp [gridPoints, gridSprings, gridSpring, gridPoint, intRange, List.range_succ, e, hs]
  · have e : ((0 : ℚ) - 10) ^ 2 + (0 - 0) ^ 2 = 100 := by norm_num
    rw [Vector.distance, e, hs]

/-- C7 on the 2x2 grid: the endpoint pairs are the two horizontal, the two
vertical, the down-right and the cross diagonal one, in this order. -/
theorem CubeObject.ctor_connectivity_witness :
    (CubeObject.ctor sqrtQ 0 0 2 2 10 50).map (fun c => c.springs.map Spring.endpoints)
      = some [(0, 1), (2, 3), (0, 2), (1, 3), (0, 3), (1, 2)] := by
  decide

/-- C11: floor collision.  For every particle with `position.y` exactly 512,
`velocity.y > 0` and `acceleration.y >= 0`, after one `Point::Update`
`position.y` equals 512 and `velocity.y` is negative. -/
theorem Point.Update_floor_collision (p : Point F) (hy : p.position.y = 512)
    (hv : 0 < p.velocity.y) (ha : 0 ≤ p.acceleration.y) :
    p.Update.position.y = 512 ∧ p.Update.velocity.y < 0 := by
  have h1 : 0 < p.velocity.y + p.acceleration.y := by linarith
  have hdt : (0 : F) < dt F := by unfold dt; norm_num
  have hfr : (0 : F) < friction F := by unfold friction; norm_num
  have h : p.position.y + (p.velocity.y + p.acceleration.y) * dt F ≥ 512 := by
    have := mul_pos h1 hdt
    linarith
  unfold Point.Update
  simp only [h, if_true, true_and]
  have := mul_pos h1 hfr
  linarith

/-- C11 at the particle on the floor at `(0,512)` with velocity `(0,2)`. -/
theorem Point.Update_floor_collision_witness :
    ((pointOnFloor ℚ).position.y = 512 ∧ 0 < (pointOnFloor ℚ).velocity.y ∧
      0 ≤ (pointOnFloor ℚ).acceleration.y) ∧
    (pointOnFloor ℚ).Update.position.y = 512 ∧ (pointOnFloor ℚ).Update.velocity.y < 0 :=
  have h1 : (pointOnFloor ℚ).position.y = 512 := rfl
  have h2 : 0 < (pointOnFloor ℚ).velocity.y := by norm_num [pointOnFloor]
  have h3 : 0 ≤ (pointOnFloor ℚ).acceleration.y := by norm_num [pointOnFloor, gravity]
  ⟨⟨h1, h2, h3⟩, Point.Update_floor_collision (pointOnFloor ℚ) h1 h2 h3⟩

theorem getElem?_accelerate (points : List (Point F)) (p1 p2 : Nat) (t : Vector F) (n : Nat) :
    (accelerate points p1 p2 t)[n]? = points[n]?.map fun p =>
      { p with acceleration :=
        ⟨p.acceleration.x + (if n = p1 then t.x else 0) - (if n = p2 then t.x else 0),
         p.acceleration.y + (if n = p1 then t.y else 0) - (if n = p2 then t.y else 0)⟩ } := by
  simp [accelerate]

theorem length_accelerate (points : List (Point F)) (p1 p2 : Nat) (t : Vector F) :
    (accelerate points p1 p2 t).length = points.length := by
  simp [accelerate]

theorem Spring.Apply_eq_accelerate (sqrt : F → F) (s : Spring F) (points : List (Point F))
    (a b : Point F) (ha : points[s.p1]? = some a) (hb : points[s.p2]? = some b) :
    s.Apply sqrt points
      = some (accelerate points s.p1 s.p2 (s.force sqrt a.position b.position)) := by
  have h1 : s.p1 < points.length := (List.getElem?_eq_some.1 ha).1
  have h2 : s.p2 < points.length := (List.getElem?_eq_some.1 hb).1
  by_cases hne : s.p1 = s.p2
  · obtain ⟨p1, p2, l, k, d⟩ := s
    simp only at hne ha hb h1 h2
    subst hne
    rw [ha] at hb
    obtain rfl : a = b := Option.some.inj hb
    unfold Spring.Apply
    simp only [ha, Option.bind_eq_bind, Option.some_bind]
    rw [assignAt_of_getElem? ha]
    simp only [Option.some_bind]
    rw [assignAt_of_getElem? (List.getElem?_set_eq_of_lt _ h1)]
    simp only [Option.some_bind, List.set_set]
    rw [assignAt_of_getElem? (List.getElem?_set_eq_of_lt _ h1)]
    simp only [Option.some_bind, List.set_set]
    rw [assignAt_of_getElem? (List.getElem?_set_eq_of_lt _ h1)]
    simp only [Option.some_bind, List.set_set, Option.some.injEq]
    apply List.ext_getElem?
    intro n
    rw [getElem?_accelerate, List.getElem?_set]
    by_cases hn : p1 = n
    · subst hn
      simp [h1, ha, Spring.force, Spring.f]
    · have hn2 : ¬ n = p1 := fun e => hn e.symm
      simp only [hn, hn2, if_false, add_zero, sub_zero]
      cases points[n]? <;> rfl
  · rw [Spring.Apply_distinct sqrt s points a b ha hb hne]
    simp only [Option.some.injEq]
    apply List.ext_getElem?
    intro n
    rw [getElem?_accelerate, List.getElem?_set, List.getElem?_set]
    have hne2 : ¬ s.p2 = s.p1 := fun e => hne e.symm
    by_cases hn2 : s.p2 = n
    · subst hn2
      simp [h2, hb, hne, hne2, Spring.force, Spring.f]
    · by_cases hn1 : s.p1 = n
      · subst hn1
        simp [h1, ha, hn2, hne, hne2, Spring.force, Spring.f]
      · have e1 : ¬ n = s.p1 := fun e => hn1 e.symm
        have e2 : ¬ n = s.p2 := fun e => hn2 e.symm
        simp only [hn1, hn2, e1, e2, if_false, add_zero, sub_zero]
        cases points[n]? <;> rfl

theorem Spring.Apply_eq_none (sqrt : F → F) (s : Spring F) (points : List (Point F))
    (h : points[s.p1]? = none ∨ points[s.p2]? = none) : s.Apply sqrt points = none := by
  unfold Spring.Apply
  rcases h with h | h
  · simp [h]
  · cases h1 : points[s.p1]? <;> simp [h]

theorem Spring.Apply_cases (sqrt : F → F) (s : Spring F) (points : List (Point F)) :
    (s.Apply sqrt points = none ∧ (points.length ≤ s.p1 ∨ points.length ≤ s.p2))
      ∨ ∃ a b, points[s.p1]? = some a ∧ points[s.p2]? = some b ∧
          s.Apply sqrt points
            = some (accelerate points s.p1 s.p2 (s.force sqrt a.position b.position)) := by
  cases ha : points[s.p1]? with
  | none =>
    exact Or.inl ⟨Spring.Apply_eq_none sqrt s points (Or.inl ha),
      Or.inl (List.getElem?_eq_none_iff.1 ha)⟩
  | some a =>
    cases hb : points[s.p2]? with
    | none =>
      exact Or.inl ⟨Spring.Apply_eq_none sqrt s points (Or.inr hb),
        Or.inr (List.getElem?_eq_none_iff.1 hb)⟩
    | some b => exact Or.inr ⟨a, b, rfl, rfl, Spring.Apply_eq_accelerate sqrt s points a b ha hb⟩

theorem accelerate_comm (points : List (Point F)) (p1 p2 q1 q2 : Nat) (t u : Vector F) :
    accelerate (accelerate points p1 p2 t) q1 q2 u
      = accelerate (accelerate points q1 q2 u) p1 p2 t := by
  apply List.ext_getElem?
  intro n
  simp only [getElem?_accelerate, Option.map_map]
  cases points[n]? with
  | none => rfl
  | some p =>
    simp only [Option.map_some', Function.comp_apply, Option.some.injEq, Point.mk.injEq,
      Vector.mk.injEq, true_and]
    constructor <;> ring

theorem map_position_accelerate (points : List (Point F)) (p1 p2 : Nat) (t : Vector F) :
    (accelerate points p1 p2 t).map Point.position = points.map Point.position := by
  apply List.ext_getElem?
  intro n
  simp only [List.getElem?_map, getElem?_accelerate, Option.map_map]
  cases points[n]? <;> rfl

theorem map_velocity_accelerate (points : List (Point F)) (p1 p2 : Nat) (t : Vector F) :
    (accelerate points p1 p2 t).map Point.velocity = points.map Point.velocity := by
  apply List.ext_getElem?
  intro n
  simp only [List.getElem?_map, getElem?_accelerate, Option.map_map]
  cases points[n]? <;> rfl

theorem sum_map_set {α : Type} (l : List α) (i : Nat) (a p : α) (h : l[i]? = some p)
    (f : α → F) : ((l.set i a).map f).sum = (l.map f).sum - f p + f a := by
  obtain ⟨hi, hp⟩ := List.getElem?_eq_some.1 h
  rw [List.map_set, List.sum_set']
  simp only [List.length_map, hi, dite_true, List.getElem_map, hp]
  ring

theorem accelerate_eq_set (points : List (Point F)) (p1 p2 : Nat) (t : Vector F)
    (a b : Point F) (ha : points[p1]? = some a) (hb : points[p2]? = some b) :
    accelerate points p1 p2 t =
      (points.set p1 { a with acceleration := ⟨a.acceleration.x + t.x, a.acceleration.y + t.y⟩ }).set
        p2 (if p1 = p2
          then { a with acceleration := ⟨a.acceleration.x + t.x - t.x, a.acceleration.y + t.y - t.y⟩ }
          else { b with acceleration := ⟨b.acceleration.x - t.x, b.acceleration.y - t.y⟩ }) := by
  have h1 : p1 < points.length := (List.getElem?_eq_some.1 ha).1
  have h2 : p2 < points.length := (List.getElem?_eq_some.1 hb).1
  apply List.ext_getElem?
  intro n
  rw [getElem?_accelerate, List.getElem?_set, List.getElem?_set]
  by_cases hn2 : p2 = n
  · subst hn2
    by_cases h12 : p1 = p2
    · subst h12
      simp [h1, ha]
    · have h21 : ¬ p2 = p1 := fun e => h12 e.symm
      simp [h2, hb, h12, h21]
  · by_cases hn1 : p1 = n
    · subst hn1
      have hn3 : ¬ p1 = p2 := fun e => hn2 e.symm
      simp [h1, ha, hn2, hn3]
    · have e1 : ¬ n = p1 := fun e => hn1 e.symm
      have e2 : ¬ n = p2 := fun e => hn2 e.symm
      simp only [hn1, hn2, e1, e2, if_false, add_zero, sub_zero]
      cases points[n]? <;> rfl

theorem totalAcceleration_accelerate (points : List (Point F)) (p1 p2 : Nat) (t : Vector F)
    (h1 : p1 < points.length) (h2 : p2 < points.length) :
    totalAcceleration (accelerate points p1 p2 t) = totalAcceleration points := by
  obtain ⟨a, ha⟩ : ∃ a, points[p1]? = some a := ⟨_, List.getElem?_eq_getElem h1⟩
  obtain ⟨b, hb⟩ : ∃ b, points[p2]? = some b := ⟨_, List.getElem?_eq_getElem h2⟩
  rw [accelerate_eq_set points p1 p2 t a b ha hb]
  unfold totalAcceleration
  by_cases h12 : p1 = p2
  · subst h12
    simp only [if_true, List.set_set, Vector.mk.injEq]
    constructor
    · rw [sum_map_set _ _ _ _ ha]
      ring
    · rw [sum_map_set _ _ _ _ ha]
      ring
  · have hb2 : (points.set p1
        { a with acceleration := ⟨a.acceleration.x + t.x, a.acceleration.y + t.y⟩ })[p2]?
        = some b := by
      rw [List.getElem?_set_ne h12]
      exact hb
    simp only [h12, if_false, Vector.mk.injEq]
    constructor
    · rw [sum_map_set _ _ _ _ hb2, sum_map_set _ _ _ _ ha]
      ring
    · rw [sum_map_set _ _ _ _ hb2, sum_map_set _ _ _ _ ha]
      ring

/-! ## `CubeObject::Apply` -/

theorem foldlM_perm {α β : Type} (f : β → α → Option β)
    (comm : ∀ x y z, (f z x).bind (fun r => f r y) = (f z y).bind (fun r => f r x))
    {l1 l2 : List α} (p : l1.Perm l2) (init : β) :
    l1.foldlM f init = l2.foldlM f init := by
  induction p generalizing init with
  | nil => rfl
  | cons x _ ih =>
    simp only [List.foldlM_cons, Option.bind_eq_bind]
    cases f init x with
    | none => rfl
    | some r => exact ih r
  | swap x y l =>
    simp only [List.foldlM_cons, Option.bind_eq_bind]
    have h := comm y x init
    cases hy : f init y with
    | none =>
      rw [hy] at h
      simp only [Option.none_bind] at h ⊢
      cases hx : f init x with
      | none => rfl
      | some r =>
        rw [hx] at h
        simp only [Option.some_bind] at h ⊢
        rw [← h]
        rfl
    | some r =>
      rw [hy] at h
      simp only [Option.some_bind] at h ⊢
      cases hx : f init x with
      | none =>
        rw [hx] at h
        simp only [Option.none_bind] at h ⊢
        rw [h]
        rfl
      | some r2 =>
        rw [hx] at h
        simp only [Option.some_bind] at h ⊢
        rw [h]
  | trans _ _ ih1 ih2 => exact (ih1 init).trans (ih2 init)

theorem Spring.Apply_accelerate (sqrt : F → F) (s : Spring F) (points : List (Point F))
    (p q : Nat) (t : Vector F) :
    s.Apply sqrt (accelerate points p q t)
      = (s.Apply sqrt points).map fun r => accelerate r p q t := by
  rcases Spring.Apply_cases sqrt s points with ⟨hn, hlen⟩ | ⟨a, b, ha, hb, hs⟩
  · rw [hn]
    apply Spring.Apply_eq_none
    rw [List.getElem?_eq_none_iff, List.getElem?_eq_none_iff, length_accelerate]
    exact hlen
  · rw [hs, Option.map_some']
    have ha2 := getElem?_accelerate points p q t s.p1
    have hb2 := getElem?_accelerate points p q t s.p2
    rw [ha, Option.map_some'] at ha2
    rw [hb, Option.map_some'] at hb2
    rw [Spring.Apply_eq_accelerate sqrt s _ _ _ ha2 hb2, accelerate_comm]

theorem Spring.Apply_comm (sqrt : F → F) (s1 s2 : Spring F) (points : List (Point F)) :
    (s1.Apply sqrt points).bind (fun r => s2.Apply sqrt r)
      = (s2.Apply sqrt points).bind (fun r => s1.Apply sqrt r) := by
  rcases Spring.Apply_cases sqrt s1 points with ⟨h1, -⟩ | ⟨a1, b1, -, -, h1⟩
  · rcases Spring.Apply_cases sqrt s2 points with ⟨h2, -⟩ | ⟨a2, b2, -, -, h2⟩
    · rw [h1, h2]
      rfl
    · rw [h1, h2, Option.some_bind, Spring.Apply_accelerate, h1]
      rfl
  · rcases Spring.Apply_cases sqrt s2 points with ⟨h2, -⟩ | ⟨a2, b2, -, -, h2⟩
    · rw [h1, h2, Option.some_bind, Spring.Apply_accelerate, h2]
      rfl
    · rw [h1, h2, Option.some_bind, Option.some_bind, Spring.Apply_accelerate,
        Spring.Apply_accelerate, h1, h2, Option.map_some', Option.map_some', accelerate_comm]

/-- What a sequence of `Spring::Apply` calls on well-placed springs keeps:
the number of particles, their positions and velocities, and the sum of
their accelerations. -/
theorem foldlM_Apply_frame (sqrt : F → F) (springs : List (Spring F)) (points : List (Point F))
    (hwf : ∀ s ∈ springs, s.p1 < points.length ∧ s.p2 < points.length) :
    ∃ points1, springs.foldlM (fun points s => s.Apply sqrt points) points = some points1 ∧
      points1.length = points.length ∧
      points1.map Point.position = points.map Point.position ∧
      points1.map Point.velocity = points.map Point.velocity ∧
      totalAcceleration points1 = totalAcceleration points := by
  induction springs generalizing points with
  | nil => exact ⟨points, rfl, rfl, rfl, rfl, rfl⟩
  | cons s springs ih =>
    obtain ⟨h1, h2⟩ := hwf s (List.mem_cons_self _ _)
    rcases Spring.Apply_cases sqrt s points with ⟨-, hlen⟩ | ⟨a, b, -, -, hs⟩
    · omega
    · have hlen := length_accelerate points s.p1 s.p2 (s.force sqrt a.position b.position)
      obtain ⟨points1, hf, e1, e2, e3, e4⟩ := ih
        (accelerate points s.p1 s.p2 (s.force sqrt a.position b.position))
        (fun s2 hs2 => by
          rw [hlen]
          exact hwf s2 (List.mem_cons_of_mem _ hs2))
      refine ⟨points1, ?_, e1.trans hlen, ?_, ?_, ?_⟩
      · rw [List.foldlM_cons, hs]
        exact hf
      · rw [e2, map_position_accelerate]
      · rw [e3, map_velocity_accelerate]
      · rw [e4, totalAcceleration_accelerate _ _ _ _ h1 h2]

theorem CubeObject.Apply_eq_some_of_wellFormed (sqrt : F → F) (c : CubeObject F)
    (hwf : c.WellFormed) :
    ∃ points1, c.Apply sqrt = some { c with points := points1 } ∧
      points1.length = c.points.length ∧
      points1.map Point.position = c.points.map Point.position ∧
      points1.map Point.velocity = c.points.map Point.velocity ∧
      totalAcceleration points1 = totalAcceleration c.points := by
  obtain ⟨points1, hf, h⟩ := foldlM_Apply_frame sqrt c.springs c.points hwf
  refine ⟨points1, ?_, h⟩
  unfold CubeObject.Apply
  rw [hf]
  rfl

theorem meshQ_wellFormed : meshQ.WellFormed := by
  intro s hs
  simp only [meshQ, List.mem_cons, List.mem_singleton, List.not_mem_nil, or_false] at hs
  rcases hs with rfl | rfl <;> decide

/-- C13: order independence of force application.  For every mesh state and
every permutation of its spring sequence, applying `Spring::Apply` once per
spring in the permuted order gives the same result (the same vector of
particles: positions, velocities and accelerations) as `CubeObject::Apply` in
the stored order; on a mesh whose springs refer to particles of the mesh both
return a result.  Arithmetic is exact (any ordered field, the reals
included). -/
theorem CubeObject.Apply_order_independent (sqrt : F → F) (c : CubeObject F)
    (springs : List (Spring F)) (hperm : springs.Perm c.springs) :
    springs.foldlM (fun points s => s.Apply sqrt points) c.points
        = (c.Apply sqrt).map CubeObject.points ∧
      (c.WellFormed → ∃ c1, c.Apply sqrt = some c1) := by
  constructor
  · rw [foldlM_perm (fun points s => s.Apply sqrt points)
      (fun x y z => Spring.Apply_comm sqrt x y z) hperm c.points]
    unfold CubeObject.Apply
    cases c.springs.foldlM (fun points s => s.Apply sqrt points) c.points <;> rfl
  · intro hwf
    obtain ⟨points1, h, -⟩ := CubeObject.Apply_eq_some_of_wellFormed sqrt c hwf
    exact ⟨_, h⟩

/-- C13 on the mesh of three particles and two springs, with the two springs
taken in the other order. -/
theorem CubeObject.Apply_order_independent_witness :
    [springQ12, springQ].Perm meshQ.springs ∧
    [springQ12, springQ].foldlM (fun points s => s.Apply sqrtQ points) meshQ.points
        = (meshQ.Apply sqrtQ).map CubeObject.points ∧
      ∃ c1, meshQ.Apply sqrtQ = some c1 :=
  have hperm : [springQ12, springQ].Perm meshQ.springs := List.Perm.swap _ _ _
  ⟨hperm, (CubeObject.Apply_order_independent sqrtQ meshQ _ hperm).1,
    (CubeObject.Apply_order_independent sqrtQ meshQ _ hperm).2 meshQ_wellFormed⟩

/-- C15: frame of force application.  For every mesh state (an object whose
springs refer to particles of the mesh) `CubeObject::Apply` returns an object
with the same springs (endpoints, rest length, stiffness and damping field)
and with the same position and the same velocity for every particle; and
`CubeObject::Update` leaves the springs, so their rest lengths, as they
are. -/
theorem CubeObject.Apply_frame (sqrt : F → F) (c : CubeObject F) (hwf : c.WellFormed) :
    (∃ c1, c.Apply sqrt = some c1 ∧ c1.springs = c.springs ∧
        c1.points.map Point.position = c.points.map Point.position ∧
        c1.points.map Point.velocity = c.points.map Point.velocity) ∧
      c.Update.springs = c.springs ∧
      c.Update.springs.map Spring.l = c.springs.map Spring.l := by
  obtain ⟨points1, h, -, hp, hv, -⟩ := CubeObject.Apply_eq_some_of_wellFormed sqrt c hwf
  exact ⟨⟨_, h, rfl, hp, hv⟩, rfl, rfl⟩

/-- C15 on the mesh of three particles and two springs. -/
theorem CubeObject.Apply_frame_witness :
    meshQ.WellFormed ∧
    (∃ c1, meshQ.Apply sqrtQ = some c1 ∧ c1.springs = meshQ.springs ∧
        c1.points.map Point.position = meshQ.points.map Point.position ∧
        c1.points.map Point.velocity = meshQ.points.map Point.velocity) ∧
      meshQ.Update.springs = meshQ.springs ∧
      meshQ.Update.springs.map Spring.l = meshQ.springs.map Spring.l :=
  ⟨meshQ_wellFormed, CubeObject.Apply_frame sqrtQ meshQ meshQ_wellFormed⟩

theorem sqrtQ_hundred : sqrtQ 100 = 10 := by
  have h : Nat.sqrt 100 = 10 := (Nat.eq_sqrt.2 (by decide)).symm
  simp [sqrtQ, h]

theorem distance_pointQ0_pointQ1 :
    Vector.distance sqrtQ pointQ0.position pointQ1.position = 10 := by
  have e : ((0 : ℚ) - 6) ^ 2 + (0 - 8) ^ 2 = 100 := by norm_num
  simp only [Vector.distance, pointQ0, pointQ1]
  rw [e, sqrtQ_hundred]

theorem Spring.f_eq (sqrt : F → F) (s : Spring F) (a b : Vector F) :
    s.f sqrt a b = (s.l - Vector.distance sqrt a b) * s.k := by
  simp only [Spring.f, Vector.distance, sq]

/-- C16, as stated, fails: the spring of rest length 5 and stiffness 50
between particles at `(0,0)` and `(6,8)` is stretched (distance 10) and its
`f` is `-250`, not positive. -/
theorem Spring.f_sign_counterexample :
    0 < springQ.k ∧ springQ.l < Vector.distance sqrtQ pointQ0.position pointQ1.position ∧
      springQ.f sqrtQ pointQ0.position pointQ1.position = -250 ∧
      ¬ 0 < springQ.f sqrtQ pointQ0.position pointQ1.position := by
  have hf : springQ.f sqrtQ pointQ0.position pointQ1.position = -250 := by
    rw [Spring.f_eq, distance_pointQ0_pointQ1]
    norm_num [springQ]
  refine ⟨by norm_num [springQ], ?_, hf, ?_⟩
  · rw [distance_pointQ0_pointQ1]
    norm_num [springQ]
  · rw [hf]
    norm_num

/-- C16, amended: for every spring with positive stiffness, the scalar `f`
computed by `Spring::Apply` is negative when the current endpoint distance is
greater than the rest length (the spring is stretched). -/
theorem Spring.f_neg_of_stretched (sqrt : F → F) (s : Spring F) (a b : Vector F)
    (hk : 0 < s.k) (hd : s.l < Vector.distance sqrt a b) : s.f sqrt a b < 0 := by
  rw [Spring.f_eq]
  exact mul_neg_of_neg_of_pos (by linarith) hk

/-- C16, amended, at the spring of rest length 5 between `(0,0)` and
`(6,8)`. -/
theorem Spring.f_neg_of_stretched_witness :
    (0 < springQ.k ∧ springQ.l < Vector.distance sqrtQ pointQ0.position pointQ1.position) ∧
      springQ.f sqrtQ pointQ0.position pointQ1.position < 0 :=
  have hk : 0 < springQ.k := by norm_num [springQ]
  have hd : springQ.l < Vector.distance sqrtQ pointQ0.position pointQ1.position := by
    rw [distance_pointQ0_pointQ1]
    norm_num [springQ]
  ⟨⟨hk, hd⟩, Spring.f_neg_of_stretched sqrtQ springQ _ _ hk hd⟩

/-- C17: restoring direction.  For every spring with stiffness `k > 0`, rest
length `l > 0` and distinct endpoint particles `A`, `B` of the vector, with
`d = posA - posB`, `Spring::Apply` changes the acceleration of `A` by `c * d`
and that of `B` by `-c * d`, where `c < 0` when `|d| > l` (the endpoints are
pulled together), `c > 0` when `0 < |d| < l` (they are pushed apart), and both
changes are zero when `|d| = l`. -/
theorem Spring.Apply_restoring (sqrt : F → F) (s : Spring F) (points : List (Point F))
    (A B : Point F) (hA : points[s.p1]? = some A) (hB : points[s.p2]? = some B)
    (hne : s.p1 ≠ s.p2) (hk : 0 < s.k) (hl : 0 < s.l) :
    ∃ points1 A1 B1 c, s.Apply sqrt points = some points1 ∧
      points1[s.p1]? = some A1 ∧ points1[s.p2]? = some B1 ∧
      (A1.acceleration.x - A.acceleration.x = c * (A.position.x - B.position.x) ∧
        A1.acceleration.y - A.acceleration.y = c * (A.position.y - B.position.y)) ∧
      (B1.acceleration.x - B.acceleration.x = -c * (A.position.x - B.position.x) ∧
        B1.acceleration.y - B.acceleration.y = -c * (A.position.y - B.position.y)) ∧
      (s.l < Vector.distance sqrt A.position B.position → c < 0) ∧
      (0 < Vector.distance sqrt A.position B.position →
        Vector.distance sqrt A.position B.position < s.l → 0 < c) ∧
      (Vector.distance sqrt A.position B.position = s.l →
        A1.acceleration = A.acceleration ∧ B1.acceleration = B.acceleration) := by
  have h1 : s.p1 < points.length := (List.getElem?_eq_some.1 hA).1
  have h2 : s.p2 < points.length := (List.getElem?_eq_some.1 hB).1
  have hne2 : ¬ s.p2 = s.p1 := fun e => hne e.symm
  have hA1 := getElem?_accelerate points s.p1 s.p2 (s.force sqrt A.position B.position) s.p1
  have hB1 := getElem?_accelerate points s.p1 s.p2 (s.force sqrt A.position B.position) s.p2
  rw [hA, Option.map_some'] at hA1
  rw [hB, Option.map_some'] at hB1
  simp only [hne, hne2, if_true, if_false, sub_zero, add_zero] at hA1 hB1
  refine ⟨_, _, _, s.f sqrt A.position B.position / s.l,
    Spring.Apply_eq_accelerate sqrt s points A B hA hB, hA1, hB1, ?_, ?_, ?_, ?_, ?_⟩
  · constructor <;> simp only [Spring.force] <;> ring
  · constructor <;> simp only [Spring.force] <;> ring
  · intro hd
    rw [Spring.f_eq]
    exact div_neg_of_neg_of_pos (mul_neg_of_neg_of_pos (by linarith) hk) hl
  · intro _ hd
    rw [Spring.f_eq]
    exact div_pos (mul_pos (by linarith) hk) hl
  · intro hd
    have hf : s.f sqrt A.position B.position = 0 := by
      rw [Spring.f_eq, hd, sub_self, zero_mul]
    simp [Spring.force, hf]

/-- C17 at the spring of rest length 5 and stiffness 50 between the particle
at `(0,0)` and the particle at `(6,8)`: it is stretched and `c` is
negative. -/
theorem Spring.Apply_restoring_witness :
    (pointsQ[springQ.p1]? = some pointQ0 ∧ pointsQ[springQ.p2]? = some pointQ1 ∧
      springQ.p1 ≠ springQ.p2 ∧ 0 < springQ.k ∧ 0 < springQ.l) ∧
    ∃ points1 A1 B1 c, Spring.Apply sqrtQ springQ pointsQ = some points1 ∧
      points1[springQ.p1]? = some A1 ∧ points1[springQ.p2]? = some B1 ∧
      (A1.acceleration.x - pointQ0.acceleration.x
          = c * (pointQ0.position.x - pointQ1.position.x) ∧
        A1.acceleration.y - pointQ0.acceleration.y
          = c * (pointQ0.position.y - pointQ1.position.y)) ∧
      (B1.acceleration.x - pointQ1.acceleration.x
          = -c * (pointQ0.position.x - pointQ1.position.x) ∧
        B1.acceleration.y - pointQ1.acceleration.y
          = -c * (pointQ0.position.y - pointQ1.position.y)) ∧
      c < 0 := by
  have hk : 0 < springQ.k := by norm_num [springQ]
  have hl : 0 < springQ.l := by norm_num [springQ]
  have hne : springQ.p1 ≠ springQ.p2 := by decide
  obtain ⟨points1, A1, B1, c, h, hA1, hB1, hAd, hBd, hneg, -, -⟩ :=
    Spring.Apply_restoring sqrtQ springQ pointsQ pointQ0 pointQ1 rfl rfl hne hk hl
  refine ⟨⟨rfl, rfl, hne, hk, hl⟩, points1, A1, B1, c, h, hA1, hB1, hAd, hBd, hneg ?_⟩
  rw [distance_pointQ0_pointQ1]
  norm_num [springQ]

/-! ## The grid in free fall -/

end Theorems

end SoftBody
